import Mathlib

set_option maxRecDepth 1000000

/-!
Verification development for the privalyse-mask masking engine
(`src/privalyse_mask/core.py` and `src/privalyse_mask/utils.py`).

Python strings are modelled as lists of unicode characters (`Str`),
which matches Python's code-point indexing and slicing semantics.
External collaborators (the Presidio recognizer, `dateparser`,
`phonenumbers`) are modelled as opaque function parameters, as the
specification treats them as external to the core.
-/

/-- Model of a Python `str`: a sequence of unicode code points. -/
abbrev Str := List Char

/-- Python `str.lower()` (ASCII range; the literals in this development are ASCII). -/
def pyLower (s : Str) : Str := s.map Char.toLower

/-- Python slicing `s[a:b]` for non-negative in-range-or-clamped indices. -/
def pySlice (s : Str) (a b : Nat) : Str := (s.take b).drop a

/-- Whether `pat` is a prefix of `s` (Boolean, by character equality). -/
def isPre : Str → Str → Bool
  | [], _ => true
  | _ :: _, [] => false
  | a :: as, b :: bs => a = b && isPre as bs

/-- Python `pat in s`: `pat` occurs as a contiguous substring of `s`. -/
def occursB (pat : Str) : Str → Bool
  | [] => isPre pat []
  | c :: cs => isPre pat (c :: cs) || occursB pat cs

/-- Worker for `str.replace` with a nonempty pattern: scan left to right;
the `Nat` argument counts characters of a just-matched occurrence that remain
to be consumed (without being emitted).  At a match the replacement is
emitted and the matched characters are skipped. -/
def replaceGo (pat rep : Str) : Nat → Str → Str
  | _, [] => []
  | k + 1, _ :: cs => replaceGo pat rep k cs
  | 0, c :: cs =>
    if isPre pat (c :: cs) then rep ++ replaceGo pat rep (pat.length - 1) cs
    else c :: replaceGo pat rep 0 cs

/-- Python `s.replace(pat, rep)` (all non-overlapping occurrences, left to right;
an empty pattern inserts `rep` at every position, as in Python). -/
def pyReplace (s pat rep : Str) : Str :=
  if pat = [] then rep ++ s.foldr (fun c acc => c :: (rep ++ acc)) []
  else replaceGo pat rep 0 s

/-- Python `s.split(sep)` for a one-character separator. -/
def pySplit (sep : Char) : Str → List Str
  | [] => [[]]
  | c :: cs =>
    match pySplit sep cs with
    | [] => [[]]
    | h :: t => if c = sep then [] :: h :: t else (c :: h) :: t

/-- ASCII whitespace, as stripped by Python `str.strip()`. -/
def isPySpace (c : Char) : Bool :=
  c = ' ' || c = '\t' || c = '\n' || c = '\x0d' || c = '\x0b' || c = '\x0c'

/-- Python `s.strip()` (ASCII whitespace). -/
def pyStrip (s : Str) : Str :=
  ((s.dropWhile isPySpace).reverse.dropWhile isPySpace).reverse

/-- Worker for Python `str.title()`: the flag records whether the previous
character was alphabetic. -/
def pyTitleGo : Bool → Str → Str
  | _, [] => []
  | prev, c :: cs =>
    if c.isAlpha then (if prev then c.toLower else c.toUpper) :: pyTitleGo true cs
    else c :: pyTitleGo false cs

/-- Python `s.title()` (ASCII letters). -/
def pyTitle (s : Str) : Str := pyTitleGo false s

/-! ## `utils.generate_hash_suffix`: MD5, truncated lowercase hex digest -/

/-- Truncation to a 32-bit word. -/
def w32 (n : Nat) : Nat := n % 4294967296

/-- 32-bit left rotation of `x < 2^32` by `s ≤ 32` bits. -/
def rotl (x s : Nat) : Nat := w32 (x * 2 ^ s) + x / 2 ^ (32 - s)

/-- Bitwise complement on 32-bit words (`x < 2^32`). -/
def not32 (x : Nat) : Nat := 4294967295 - x

/-- The 64 MD5 sine-derived constants (RFC 1321). -/
def md5K : List Nat :=
  [0xd76aa478, 0xe8c7b756, 0x242070db, 0xc1bdceee,
   0xf57c0faf, 0x4787c62a, 0xa8304613, 0xfd469501,
   0x698098d8, 0x8b44f7af, 0xffff5bb1, 0x895cd7be,
   0x6b901122, 0xfd987193, 0xa679438e, 0x49b40821,
   0xf61e2562, 0xc040b340, 0x265e5a51, 0xe9b6c7aa,
   0xd62f105d, 0x02441453, 0xd8a1e681, 0xe7d3fbc8,
   0x21e1cde6, 0xc33707d6, 0xf4d50d87, 0x455a14ed,
   0xa9e3e905, 0xfcefa3f8, 0x676f02d9, 0x8d2a4c8a,
   0xfffa3942, 0x8771f681, 0x6d9d6122, 0xfde5380c,
   0xa4beea44, 0x4bdecfa9, 0xf6bb4b60, 0xbebfbc70,
   0x289b7ec6, 0xeaa127fa, 0xd4ef3085, 0x04881d05,
   0xd9d4d039, 0xe6db99e5, 0x1fa27cf8, 0xc4ac5665,
   0xf4292244, 0x432aff97, 0xab9423a7, 0xfc93a039,
   0x655b59c3, 0x8f0ccc92, 0xffeff47d, 0x85845dd1,
   0x6fa87e4f, 0xfe2ce6e0, 0xa3014314, 0x4e0811a1,
   0xf7537e82, 0xbd3af235, 0x2ad7d2bb, 0xeb86d391]

/-- The 64 MD5 per-operation shift amounts. -/
def md5S : List Nat :=
  [7, 12, 17, 22, 7, 12, 17, 22, 7, 12, 17, 22, 7, 12, 17, 22,
   5, 9, 14, 20, 5, 9, 14, 20, 5, 9, 14, 20, 5, 9, 14, 20,
   4, 11, 16, 23, 4, 11, 16, 23, 4, 11, 16, 23, 4, 11, 16, 23,
   6, 10, 15, 21, 6, 10, 15, 21, 6, 10, 15, 21, 6, 10, 15, 21]

/-- The MD5 round function applied at operation index `i`. -/
def md5F (i b c d : Nat) : Nat :=
  if i < 16 then Nat.lor (Nat.land b c) (Nat.land (not32 b) d)
  else if i < 32 then Nat.lor (Nat.land d b) (Nat.land (not32 d) c)
  else if i < 48 then Nat.xor b (Nat.xor c d)
  else Nat.xor c (Nat.lor b (not32 d))

/-- The MD5 message-word index used at operation index `i`. -/
def md5G (i : Nat) : Nat :=
  if i < 16 then i
  else if i < 32 then (5 * i + 1) % 16
  else if i < 48 then (3 * i + 5) % 16
  else (7 * i) % 16

/-- One of the 64 MD5 operations on the state `(a, b, c, d)`. -/
def md5Step (M : List Nat) (st : Nat × Nat × Nat × Nat) (i : Nat) : Nat × Nat × Nat × Nat :=
  match st with
  | (a, b, c, d) =>
    let tmp := w32 (a + md5F i b c d + md5K.getD i 0 + M.getD (md5G i) 0)
    (d, w32 (b + rotl tmp (md5S.getD i 0)), b, c)

/-- Process one 64-byte block (given as 16 little-endian words). -/
def md5Block (st : Nat × Nat × Nat × Nat) (M : List Nat) : Nat × Nat × Nat × Nat :=
  match st, (List.range 64).foldl (md5Step M) st with
  | (a0, b0, c0, d0), (a, b, c, d) =>
    (w32 (a0 + a), w32 (b0 + b), w32 (c0 + c), w32 (d0 + d))

/-- The `k` least-significant bytes of `n`, little-endian. -/
def toLE (n k : Nat) : List Nat :=
  (List.range k).map (fun i => n / 2 ^ (8 * i) % 256)

/-- MD5 padding: `0x80`, zeros to 56 mod 64, then the 64-bit little-endian bit length. -/
def md5Pad (msg : List Nat) : List Nat :=
  msg ++ [128] ++ List.replicate ((119 - msg.length % 64) % 64) 0 ++ toLE (8 * msg.length) 8

/-- Read a 64-byte chunk as 16 little-endian 32-bit words. -/
def bytesToWords (chunk : List Nat) : List Nat :=
  (List.range 16).map (fun i =>
    chunk.getD (4 * i) 0 + 256 * chunk.getD (4 * i + 1) 0 +
      65536 * chunk.getD (4 * i + 2) 0 + 16777216 * chunk.getD (4 * i + 3) 0)

/-- Take `n` successive 64-byte chunks from a byte string. -/
def chunksN : Nat → List Nat → List (List Nat)
  | 0, _ => []
  | n + 1, l => l.take 64 :: chunksN n (l.drop 64)

/-- Split a byte string into 64-byte chunks (the chunk count is the ceiling of
`length / 64`, so this agrees with repeated take-64/drop-64 on every input). -/
def chunks64 (l : List Nat) : List (List Nat) := chunksN ((l.length + 63) / 64) l

/-- The 16-byte MD5 digest of a byte string. -/
def md5Digest (msg : List Nat) : List Nat :=
  match (chunks64 (md5Pad msg)).foldl (fun s ch => md5Block s (bytesToWords ch))
      (0x67452301, 0xefcdab89, 0x98badcfe, 0x10325476) with
  | (a, b, c, d) => toLE a 4 ++ toLE b 4 ++ toLE c 4 ++ toLE d 4

/-- Lowercase hexadecimal digit for `n % 16`. -/
def hexDigitChar (n : Nat) : Char :=
  if n % 16 = 0 then '0' else if n % 16 = 1 then '1'
  else if n % 16 = 2 then '2' else if n % 16 = 3 then '3'
  else if n % 16 = 4 then '4' else if n % 16 = 5 then '5'
  else if n % 16 = 6 then '6' else if n % 16 = 7 then '7'
  else if n % 16 = 8 then '8' else if n % 16 = 9 then '9'
  else if n % 16 = 10 then 'a' else if n % 16 = 11 then 'b'
  else if n % 16 = 12 then 'c' else if n % 16 = 13 then 'd'
  else if n % 16 = 14 then 'e' else 'f'

/-- Lowercase hex rendering of a byte string. -/
def bytesToHex (bs : List Nat) : Str :=
  bs.foldr (fun b acc => hexDigitChar (b / 16) :: hexDigitChar (b % 16) :: acc) []

/-- `hashlib.md5(...).hexdigest()` on a byte string. -/
def md5Hex (msg : List Nat) : Str := bytesToHex (md5Digest msg)

/-- UTF-8 encoding of one code point. -/
def utf8Char (c : Char) : List Nat :=
  let n := c.toNat
  if n < 128 then [n]
  else if n < 2048 then [192 + n / 64, 128 + n % 64]
  else if n < 65536 then [224 + n / 4096, 128 + n / 64 % 64, 128 + n % 64]
  else [240 + n / 262144, 128 + n / 4096 % 64, 128 + n / 64 % 64, 128 + n % 64]

/-- Python `s.encode()`: UTF-8 bytes of a string. -/
def utf8Bytes (s : Str) : List Nat := s.foldr (fun c acc => utf8Char c ++ acc) []

/-- `utils.generate_hash_suffix(text, length, salt)`:
`hashlib.md5(f"{text}{salt}".encode()).hexdigest()[:length]`. -/
def generate_hash_suffix (text : Str) (length : Nat) (salt : Str) : Str :=
  (md5Hex (utf8Bytes (text ++ salt))).take length


/-! ## Data model (`core.py`) -/

/-- A Presidio `RecognizerResult`: entity category tag, `[start, end)` offsets
into the source text, and a confidence score (modelled as a rational). -/
structure RecognizerResult where
  entity_type : Str
  start : Nat
  «end» : Nat
  score : Rat
deriving DecidableEq, Repr

/-- The built-in pronoun stop words always added to the allow-list (`core.STOP_WORDS`). -/
def STOP_WORDS : List Str :=
  List.map String.toList
    ["ich", "du", "er", "sie", "es", "wir", "ihr", "mein", "dein", "sein",
     "unser", "euer", "der", "die", "das",
     "i", "me", "my", "myself", "we", "our", "ours", "ourselves", "you",
     "your", "yours", "yourself", "yourselves", "he", "him", "his", "himself",
     "she", "her", "hers", "herself", "it", "its", "itself", "they", "them",
     "their", "theirs", "themselves"]

/-- The masking engine's immutable per-session state.  The analyzer itself is
the external Recognizer layer; `dateParse` models `dateparser.parse` plus
`strftime("%B_%Y")` (returning the month and year strings on success), and
`phoneParse` models `phonenumbers.parse` plus `region_code_for_number`
(`none` for a parse failure or missing region). -/
structure PrivalyseMasker where
  allow_list : List Str
  seed : Str
  dateParse : Str → Option (Str × Str)
  phoneParse : Str → Option Str

/-- `PrivalyseMasker.__init__`: the allow-list is the user entries lower-cased
plus the built-in stop words (a set, modelled by list membership). -/
def PrivalyseMasker.init (allow_list : List Str) (seed : Str)
    (dateParse : Str → Option (Str × Str)) (phoneParse : Str → Option Str) :
    PrivalyseMasker :=
  ⟨allow_list.map pyLower ++ STOP_WORDS, seed, dateParse, phoneParse⟩

/-- The opening brace character `\x7b`, written via its code to keep string
literals plain. -/
def lbr : Char := '\x7b'

/-- The closing brace character `\x7d`. -/
def rbr : Char := '\x7d'

/-- Build a brace-delimited placeholder from its inner text. -/
def braceTok (inner : Str) : Str := lbr :: (inner ++ [rbr])

/-- `utils.parse_and_format_date`, with `dateparser` as collaborator `dp`:
on a successful parse emit `{Date_<Month>_<Year>}`, otherwise `{Date_General}`. -/
def parse_and_format_date (dp : Str → Option (Str × Str)) (date_string : Str) : Str :=
  match dp date_string with
  | some (month, year) => braceTok ("Date_".toList ++ month ++ ['_'] ++ year)
  | none => braceTok "Date_General".toList

/-! ## Surrogate generation (`core.py`) -/

/-- `PrivalyseMasker._COUNTRY_MAP`. -/
def COUNTRY_MAP : List (Str × Str) :=
  List.map (fun p => (String.toList p.1, String.toList p.2))
    [("DE", "German"), ("US", "US"), ("GB", "UK"), ("FR", "French"),
     ("ES", "Spanish"), ("IT", "Italian"), ("NL", "Dutch"), ("AT", "Austrian")]

/-- Python `dict.get(k, dflt)` on an association list. -/
def lookupD (m : List (Str × Str)) (k dflt : Str) : Str :=
  match m.find? (fun p => p.1 == k) with
  | some p => p.2
  | none => dflt

/-- `PrivalyseMasker._ADDRESS_INDICATORS`. -/
def ADDRESS_INDICATORS : List Str :=
  List.map String.toList
    ["street", "st.", "road", "rd.", "avenue", "ave.", "terrace", "lane",
     "drive", "way", "platz", "straße", "str.", "weg", "gasse", "allee"]

/-- `_surrogate_for_person`: `{Name_<hash>}`. -/
def surrogate_for_person (m : PrivalyseMasker) (value : Str) : Str :=
  braceTok ("Name_".toList ++ generate_hash_suffix value 5 m.seed)

/-- `_surrogate_for_date`: delegate to `parse_and_format_date`. -/
def surrogate_for_date (m : PrivalyseMasker) (value : Str) : Str :=
  parse_and_format_date m.dateParse value

/-- `_surrogate_for_iban`: `{<Country>_IBAN}` when the first two characters
(upper-cased) are alphabetic, else `{IBAN}`. -/
def surrogate_for_iban (value : Str) : Str :=
  let country_code := (value.take 2).map Char.toUpper
  if !country_code.isEmpty && country_code.all Char.isAlpha then
    braceTok (lookupD COUNTRY_MAP country_code country_code ++ "_IBAN".toList)
  else braceTok "IBAN".toList

/-- `_surrogate_for_german_id`: the fixed token `{German_ID}`. -/
def surrogate_for_german_id (_value : Str) : Str :=
  braceTok "German_ID".toList

/-- Join a list of strings with a separator character (Python `sep.join`). -/
def joinSep (sep : Char) : List Str → Str
  | [] => []
  | [x] => x
  | x :: xs => x ++ sep :: joinSep sep xs

/-- `_surrogate_for_id_document`: for compound tags `<CC>_<DOCTYPE...>` with a
2-letter prefix, `{<Country>_<DocType>}` (doc type title-cased); else the tag
verbatim in braces. -/
def surrogate_for_id_document (entity_type _value : Str) : Str :=
  match pySplit '_' entity_type with
  | p0 :: p1 :: rest =>
    if p0.length = 2 then
      braceTok (lookupD COUNTRY_MAP p0 p0 ++ '_' :: pyTitle (joinSep '_' (p1 :: rest)))
    else braceTok entity_type
  | _ => braceTok entity_type

/-- `_surrogate_for_email`: `{Email_at_<domain>}` when an `@` is present, else `{Email}`. -/
def surrogate_for_email (value : Str) : Str :=
  if occursB ['@'] value then
    braceTok ("Email_at_".toList ++ (pySplit '@' value).getLastD [])
  else braceTok "Email".toList

/-- `_surrogate_for_phone`: `{Phone_<region>}` when the collaborator yields a
nonempty region code, else `{Phone}`. -/
def surrogate_for_phone (m : PrivalyseMasker) (value : Str) : Str :=
  match m.phoneParse value with
  | some region_code =>
    if !region_code.isEmpty then braceTok ("Phone_".toList ++ region_code)
    else braceTok "Phone".toList
  | none => braceTok "Phone".toList

/-- First character is upper-case (Python `s[0].isupper()` behind a nonempty guard). -/
def headUpper : Str → Bool
  | [] => false
  | c :: _ => c.isUpper

/-- `_surrogate_for_location`: generic locations (no digit, no street-suffix
indicator) are not masked (`none`); specific addresses yield
`{Address_in_<City>}` when the last comma-separated segment is a nonempty,
digit-free, capitalized token, else `{Address_<hash>}`. -/
def surrogate_for_location (m : PrivalyseMasker) (value : Str) : Option Str :=
  let lower_val := pyLower value
  let has_digits := value.any Char.isDigit
  let has_address_indicator := ADDRESS_INDICATORS.any (fun ind => occursB ind lower_val)
  if has_digits || has_address_indicator then
    if occursB [','] value then
      let potential_city := pyStrip ((pySplit ',' value).getLastD [])
      if !potential_city.isEmpty && !potential_city.any Char.isDigit
          && headUpper potential_city then
        some (braceTok ("Address_in_".toList ++ potential_city))
      else some (braceTok ("Address_".toList ++ generate_hash_suffix value 5 m.seed))
    else some (braceTok ("Address_".toList ++ generate_hash_suffix value 5 m.seed))
  else none

/-- `_surrogate_for_nationality`: `{Nationality_<hash>}`. -/
def surrogate_for_nationality (m : PrivalyseMasker) (value : Str) : Str :=
  braceTok ("Nationality_".toList ++ generate_hash_suffix value 5 m.seed)

/-- `_generate_surrogate`: dispatch on the entity type (`_SURROGATE_HANDLERS`),
then compound document-id tags, then the generic `{<category>_<hash>}` fallback.
`none` means "leave the span visible". -/
def generate_surrogate (m : PrivalyseMasker) (entity_type value : Str) : Option Str :=
  if entity_type = "PERSON".toList then some (surrogate_for_person m value)
  else if entity_type = "DATE_TIME".toList then some (surrogate_for_date m value)
  else if entity_type = "IBAN_CODE".toList then some (surrogate_for_iban value)
  else if entity_type = "DE_ID_CARD".toList then some (surrogate_for_german_id value)
  else if entity_type = "EMAIL_ADDRESS".toList then some (surrogate_for_email value)
  else if entity_type = "PHONE_NUMBER".toList then some (surrogate_for_phone m value)
  else if entity_type = "LOCATION".toList then surrogate_for_location m value
  else if entity_type = "NRP".toList then some (surrogate_for_nationality m value)
  else if occursB "PASSPORT".toList entity_type
      || occursB "DRIVER_LICENSE".toList entity_type
      || occursB "ID".toList entity_type then
    some (surrogate_for_id_document entity_type value)
  else some (braceTok (entity_type ++ '_' :: generate_hash_suffix value 5 m.seed))

/-! ## Overlap resolution (`_remove_overlaps`) -/

/-- Stable insertion into a list sorted by ascending `start`
(Python `list.sort(key=lambda x: x.start)` is stable). -/
def insertByStart (r : RecognizerResult) :
    List RecognizerResult → List RecognizerResult
  | [] => [r]
  | x :: xs => if r.start ≤ x.start then r :: x :: xs else x :: insertByStart r xs

/-- Stable sort by ascending `start`. -/
def sortByStart : List RecognizerResult → List RecognizerResult
  | [] => []
  | x :: xs => insertByStart x (sortByStart xs)

/-- The greedy scan of `_remove_overlaps`: when the next span starts before the
current one ends, keep the higher score, break ties by longer length, else
keep the current span. -/
def remove_overlaps_go (current : RecognizerResult) :
    List RecognizerResult → List RecognizerResult
  | [] => [current]
  | next :: rest =>
    if next.start < current.«end» then
      if next.score > current.score then remove_overlaps_go next rest
      else if next.score = current.score
          ∧ next.«end» - next.start > current.«end» - current.start then
        remove_overlaps_go next rest
      else remove_overlaps_go current rest
    else current :: remove_overlaps_go next rest

/-- `_remove_overlaps`: sort by start, then greedily drop overlapping spans. -/
def remove_overlaps (results : List RecognizerResult) : List RecognizerResult :=
  match sortByStart results with
  | [] => []
  | x :: xs => remove_overlaps_go x xs

/-! ## Adjacent-date merging (`_merge_adjacent_dates`) -/

/-- A character matched by the gap pattern `[\s,.-]`. -/
def isGapChar (c : Char) : Bool := isPySpace c || c = ',' || c = '.' || c = '-'

/-- `re.match(r"^[\s,.-]+$", gap)`: one or more gap characters and nothing else. -/
def gapRegexMatch (g : Str) : Bool := !g.isEmpty && g.all isGapChar

/-- Fuse two spans: extend the first span's end to the second's and keep the
maximum score. -/
def fuseSpans (current next : RecognizerResult) : RecognizerResult :=
  ⟨current.entity_type, current.start, next.«end», max current.score next.score⟩

/-- The scan of `_merge_adjacent_dates` over the sorted spans. -/
def merge_adjacent_dates_go (text : Str) (current : RecognizerResult) :
    List RecognizerResult → List RecognizerResult
  | [] => [current]
  | next :: rest =>
    if current.entity_type = "DATE_TIME".toList
        ∧ next.entity_type = "DATE_TIME".toList
        ∧ (pySlice text current.«end» next.start).length ≤ 3
        ∧ gapRegexMatch (pySlice text current.«end» next.start) then
      merge_adjacent_dates_go text (fuseSpans current next) rest
    else current :: merge_adjacent_dates_go text next rest

/-- `_merge_adjacent_dates`: sort by start and fuse adjacent `DATE_TIME` spans
separated by at most three punctuation/whitespace characters. -/
def merge_adjacent_dates (text : Str) (results : List RecognizerResult) :
    List RecognizerResult :=
  match sortByStart results with
  | [] => []
  | x :: xs => merge_adjacent_dates_go text x xs

/-! ## Masking, unmasking, structured masking -/

/-- A Python `dict[str, str]` in insertion order. -/
abbrev PyDict := List (Str × Str)

/-- Python `d[k] = v`: overwrite in place if the key exists, else append. -/
def dictInsert (d : PyDict) (k v : Str) : PyDict :=
  if d.any (fun p => p.1 == k) then d.map (fun p => if p.1 == k then (k, v) else p)
  else d ++ [(k, v)]

/-- Python `d.update(upd)` in `upd`'s insertion order. -/
def dictUpdate (d upd : PyDict) : PyDict :=
  upd.foldl (fun acc p => dictInsert acc p.1 p.2) d

/-- Stable insertion into a list sorted by descending `start`
(Python `sort(key=..., reverse=True)` is stable). -/
def insertByStartDesc (r : RecognizerResult) :
    List RecognizerResult → List RecognizerResult
  | [] => [r]
  | x :: xs => if r.start ≥ x.start then r :: x :: xs else x :: insertByStartDesc r xs

/-- Stable sort by descending `start`. -/
def sortByStartDesc : List RecognizerResult → List RecognizerResult
  | [] => []
  | x :: xs => insertByStartDesc x (sortByStartDesc xs)

/-- The substitution loop of `mask`: spans in descending-start order; skip
allow-listed literals and spans whose synthesizer returns `none`; otherwise
record `surrogate -> literal` and splice the surrogate into the working text. -/
def mask_go (m : PrivalyseMasker) (text : Str) :
    List RecognizerResult → Str → PyDict → Str × PyDict
  | [], masked_text, mapping => (masked_text, mapping)
  | result :: rest, masked_text, mapping =>
    let entity_text := pySlice text result.start result.«end»
    if pyLower entity_text ∈ m.allow_list then mask_go m text rest masked_text mapping
    else
      match generate_surrogate m result.entity_type entity_text with
      | none => mask_go m text rest masked_text mapping
      | some surrogate =>
        mask_go m text rest
          (masked_text.take result.start ++ surrogate ++ masked_text.drop result.«end»)
          (dictInsert mapping surrogate entity_text)

/-- `PrivalyseMasker.mask` on an initialized engine, with the Recognizer
layer's candidate spans `results` supplied as input: resolve overlaps, merge
adjacent dates, then substitute in descending-start order. -/
def mask (m : PrivalyseMasker) (text : Str) (results : List RecognizerResult) :
    Str × PyDict :=
  mask_go m text (sortByStartDesc (merge_adjacent_dates text (remove_overlaps results)))
    text []

/-- Stable insertion into a list sorted by descending key length. -/
def insertByKeyLenDesc (p : Str × Str) : PyDict → PyDict
  | [] => [p]
  | x :: xs => if p.1.length ≥ x.1.length then p :: x :: xs else x :: insertByKeyLenDesc p xs

/-- Stable sort of mapping items by descending key length
(`sorted(mapping.items(), key=lambda x: len(x[0]), reverse=True)`). -/
def sortByKeyLenDesc : PyDict → PyDict
  | [] => []
  | x :: xs => insertByKeyLenDesc x (sortByKeyLenDesc xs)

/-- `PrivalyseMasker.unmask`: replace every surrogate by its original,
longest keys first. -/
def unmask (masked_text : Str) (mapping : PyDict) : Str :=
  (sortByKeyLenDesc mapping).foldl (fun t p => pyReplace t p.1 p.2) masked_text

/-- A JSON-like Python value: string, dict, list, or some other primitive
(opaquely tagged). -/
inductive PyVal where
  | pstr (s : Str)
  | pdict (entries : List (Str × PyVal))
  | plist (items : List PyVal)
  | pother (tag : Nat)

mutual
/-- The recursive worker of `mask_struct`, threading the combined mapping.
`detect` is the Recognizer layer applied to each string leaf. -/
def mask_struct_go (m : PrivalyseMasker) (detect : Str → List RecognizerResult) :
    PyVal → PyDict → PyVal × PyDict
  | .pstr s, acc =>
    match mask m s (detect s) with
    | (masked_val, mapping) => (.pstr masked_val, dictUpdate acc mapping)
  | .pdict es, acc =>
    match mask_struct_dict m detect es acc with
    | (es', acc') => (.pdict es', acc')
  | .plist xs, acc =>
    match mask_struct_list m detect xs acc with
    | (xs', acc') => (.plist xs', acc')
  | .pother t, acc => (.pother t, acc)

/-- Dict entries: keys pass through unchanged, values are masked recursively. -/
def mask_struct_dict (m : PrivalyseMasker) (detect : Str → List RecognizerResult) :
    List (Str × PyVal) → PyDict → List (Str × PyVal) × PyDict
  | [], acc => ([], acc)
  | (k, v) :: rest, acc =>
    match mask_struct_go m detect v acc with
    | (v', acc') =>
      match mask_struct_dict m detect rest acc' with
      | (rest', acc'') => ((k, v') :: rest', acc'')

/-- List items, masked recursively in order. -/
def mask_struct_list (m : PrivalyseMasker) (detect : Str → List RecognizerResult) :
    List PyVal → PyDict → List PyVal × PyDict
  | [], acc => ([], acc)
  | x :: rest, acc =>
    match mask_struct_go m detect x acc with
    | (x', acc') =>
      match mask_struct_list m detect rest acc' with
      | (rest', acc'') => (x' :: rest', acc'')
end

/-- `PrivalyseMasker.mask_struct`: recursively mask every string leaf,
returning the masked structure and the combined mapping. -/
def mask_struct (m : PrivalyseMasker) (detect : Str → List RecognizerResult)
    (data : PyVal) : PyVal × PyDict :=
  mask_struct_go m detect data []


/-! ## Sorting lemmas -/

theorem mem_insertByStart (r x : RecognizerResult) (l : List RecognizerResult) :
    x ∈ insertByStart r l ↔ x = r ∨ x ∈ l := by
  induction l with
  | nil => simp [insertByStart]
  | cons y ys ih =>
    simp only [insertByStart]
    split
    · simp [List.mem_cons]
    · simp only [List.mem_cons, ih]
      tauto

theorem pairwise_insertByStart (r : RecognizerResult) (l : List RecognizerResult)
    (h : l.Pairwise (fun a b => a.start ≤ b.start)) :
    (insertByStart r l).Pairwise (fun a b => a.start ≤ b.start) := by
  induction l with
  | nil => simp [insertByStart]
  | cons y ys ih =>
    rw [List.pairwise_cons] at h
    simp only [insertByStart]
    split
    · rename_i hle
      rw [List.pairwise_cons]
      constructor
      · intro z hz
        rcases List.mem_cons.mp hz with hz | hz
        · exact hz ▸ hle
        · exact le_trans hle (h.1 z hz)
      · rw [List.pairwise_cons]
        exact h
    · rename_i hgt
      rw [List.pairwise_cons]
      refine ⟨?_, ih h.2⟩
      intro z hz
      rcases (mem_insertByStart r z ys).mp hz with rfl | hz
      · omega
      · exact h.1 z hz

theorem mem_sortByStart (x : RecognizerResult) (l : List RecognizerResult) :
    x ∈ sortByStart l ↔ x ∈ l := by
  induction l with
  | nil => simp [sortByStart]
  | cons y ys ih =>
    simp only [sortByStart, mem_insertByStart, List.mem_cons, ih]

theorem sortByStart_sorted (l : List RecognizerResult) :
    (sortByStart l).Pairwise (fun a b => a.start ≤ b.start) := by
  induction l with
  | nil => simp [sortByStart]
  | cons y ys ih => exact pairwise_insertByStart y _ ih

/-! ## Overlap resolver: non-overlap postcondition (claim C2 machinery) -/

theorem remove_overlaps_go_spec (l : List RecognizerResult) :
    ∀ c : RecognizerResult, (∀ x ∈ l, c.start ≤ x.start) →
      l.Pairwise (fun a b => a.start ≤ b.start) →
      (∀ y ∈ remove_overlaps_go c l, c.start ≤ y.start) ∧
      (remove_overlaps_go c l).Pairwise (fun a b => a.«end» ≤ b.start) ∧
      (remove_overlaps_go c l).Pairwise (fun a b => a.start ≤ b.start) := by
  induction l with
  | nil =>
    intro c _ _
    refine ⟨?_, ?_, ?_⟩ <;> simp [remove_overlaps_go]
  | cons n rest ih =>
    intro c hmin hsorted
    rw [List.pairwise_cons] at hsorted
    have hcn : c.start ≤ n.start := hmin n (List.mem_cons_self n rest)
    have hrest : ∀ x ∈ rest, n.start ≤ x.start := hsorted.1
    simp only [remove_overlaps_go]
    split
    · -- overlap: the scan continues with either `n` or `c`
      have hn := ih n hrest hsorted.2
      have hc := ih c (fun x hx => le_trans hcn (hrest x hx)) hsorted.2
      split
      · exact ⟨fun y hy => le_trans hcn (hn.1 y hy), hn.2⟩
      · split
        · exact ⟨fun y hy => le_trans hcn (hn.1 y hy), hn.2⟩
        · exact hc
    · -- no overlap: emit `c`, continue with `n`
      rename_i hno
      have hn := ih n hrest hsorted.2
      have hce : c.«end» ≤ n.start := Nat.le_of_not_lt hno
      refine ⟨?_, ?_, ?_⟩
      · intro y hy
        rcases List.mem_cons.mp hy with rfl | hy
        · exact le_refl _
        · exact le_trans hcn (hn.1 y hy)
      · rw [List.pairwise_cons]
        exact ⟨fun y hy => le_trans hce (hn.1 y hy), hn.2.1⟩
      · rw [List.pairwise_cons]
        exact ⟨fun y hy => le_trans hcn (hn.1 y hy), hn.2.2⟩

/-- C2.  Non-overlap postcondition of the Overlap Resolver: any two distinct
spans `A` (earlier) and `B` (later) in the output of `_remove_overlaps`
satisfy `A.end ≤ B.start` — hence `A.end ≤ B.start ∨ B.end ≤ A.start` for
every distinct pair — and the output is sorted by ascending start offset. -/
theorem C2_overlap_resolver_postcondition (results : List RecognizerResult) :
    (remove_overlaps results).Pairwise
        (fun a b => a.«end» ≤ b.start ∨ b.«end» ≤ a.start) ∧
    (remove_overlaps results).Pairwise (fun a b => a.start ≤ b.start) := by
  unfold remove_overlaps
  rcases hs : sortByStart results with _ | ⟨x, xs⟩
  · simp
  · have hsorted := sortByStart_sorted results
    rw [hs, List.pairwise_cons] at hsorted
    have h := remove_overlaps_go_spec xs x hsorted.1 hsorted.2
    exact ⟨h.2.1.imp Or.inl, h.2.2⟩

/-- C3.  Tie-break determinism of the greedy overlap scan: on an overlap
(`n.start < c.end`) the span with the strictly higher score is kept as the
survivor of the step; on a score tie the longer span (by `end - start`) is
kept; on a tie in both, the earliest-encountered (current) span is kept.
`hc`/`hn` record that the spans are directional (`start ≤ end`), so that the
natural-number length subtraction agrees with Python's integers. -/
theorem C3_tie_break_determinism (c n : RecognizerResult)
    (rest : List RecognizerResult)
    (hc : c.start ≤ c.«end») (hn : n.start ≤ n.«end»)
    (hov : n.start < c.«end») :
    (n.score > c.score →
      remove_overlaps_go c (n :: rest) = remove_overlaps_go n rest) ∧
    (c.score > n.score →
      remove_overlaps_go c (n :: rest) = remove_overlaps_go c rest) ∧
    (n.score = c.score → n.«end» - n.start > c.«end» - c.start →
      remove_overlaps_go c (n :: rest) = remove_overlaps_go n rest) ∧
    (n.score = c.score → c.«end» - c.start > n.«end» - n.start →
      remove_overlaps_go c (n :: rest) = remove_overlaps_go c rest) ∧
    (n.score = c.score → c.«end» - c.start = n.«end» - n.start →
      remove_overlaps_go c (n :: rest) = remove_overlaps_go c rest) := by
  have _ := hc; have _ := hn
  refine ⟨?_, ?_, ?_, ?_, ?_⟩
  · intro hgt
    simp only [remove_overlaps_go, if_pos hov, if_pos hgt]
  · intro hgt
    have h1 : ¬ n.score > c.score := by exact not_lt_of_gt hgt
    have h2 : ¬ (n.score = c.score
        ∧ n.«end» - n.start > c.«end» - c.start) := by
      rintro ⟨he, -⟩; exact absurd he (ne_of_lt hgt)
    simp only [remove_overlaps_go, if_pos hov, if_neg h1, if_neg h2]
  · intro he hlen
    have h1 : ¬ n.score > c.score := by rw [he]; exact lt_irrefl _
    simp only [remove_overlaps_go, if_pos hov, if_neg h1, if_pos (And.intro he hlen)]
  · intro he hlen
    have h1 : ¬ n.score > c.score := by rw [he]; exact lt_irrefl _
    have h2 : ¬ (n.score = c.score
        ∧ n.«end» - n.start > c.«end» - c.start) := by
      rintro ⟨-, hl⟩; omega
    simp only [remove_overlaps_go, if_pos hov, if_neg h1, if_neg h2]
  · intro he hlen
    have h1 : ¬ n.score > c.score := by rw [he]; exact lt_irrefl _
    have h2 : ¬ (n.score = c.score
        ∧ n.«end» - n.start > c.«end» - c.start) := by
      rintro ⟨-, hl⟩; omega
    simp only [remove_overlaps_go, if_pos hov, if_neg h1, if_neg h2]

/-- Witness for C3 at concrete spans: an overlapping pair where the higher
score (3/4 over 1/2) wins the step. -/
theorem C3_tie_break_determinism_witness :
    remove_overlaps_go ⟨"PERSON".toList, 0, 5, 0⟩
        [⟨"PERSON".toList, 2, 4, 1⟩] =
      remove_overlaps_go ⟨"PERSON".toList, 2, 4, 1⟩ [] :=
  (C3_tie_break_determinism ⟨"PERSON".toList, 0, 5, 0⟩
    ⟨"PERSON".toList, 2, 4, 1⟩ [] (by decide) (by decide) (by decide)).1
    (by decide)

/-! ## Adjacent-date merging (claim C4) -/

/-- C4, counterexample.  Two adjacent DATE_TIME spans with an *empty* gap
(`end` of the first equals `start` of the second): the gap has length 0 ≤ 3
and vacuously consists only of whitespace/comma/period/hyphen characters,
so the claim requires fusion, but the merger's pattern `^[\s,.-]+$` demands a
nonempty gap and the code leaves the two spans unmerged. -/
theorem C4_adjacent_date_merge_counterexample :
    merge_adjacent_dates "ab".toList
        [⟨"DATE_TIME".toList, 0, 1, 1⟩, ⟨"DATE_TIME".toList, 1, 2, 1⟩] =
      [⟨"DATE_TIME".toList, 0, 1, 1⟩, ⟨"DATE_TIME".toList, 1, 2, 1⟩] ∧
    merge_adjacent_dates "ab".toList
        [⟨"DATE_TIME".toList, 0, 1, 1⟩, ⟨"DATE_TIME".toList, 1, 2, 1⟩] ≠
      [⟨"DATE_TIME".toList, 0, 2, 1⟩] := by decide

/-- C4, amended.  Two consecutive spans are fused iff both are DATE_TIME and
the text strictly between them has length between 1 and 3 (nonempty!) and
consists only of whitespace, commas, periods or hyphens; fusing extends the
first span's end to the second's and takes the maximum score.  A gap of
exactly 3 such characters merges, a gap of 4 does not, a gap containing a
letter does not, and non-date categories never merge. -/
theorem C4_adjacent_date_merge_amended :
    (∀ (text : Str) (c n : RecognizerResult) (rest : List RecognizerResult),
      merge_adjacent_dates_go text c (n :: rest) =
        if c.entity_type = "DATE_TIME".toList ∧ n.entity_type = "DATE_TIME".toList
            ∧ 1 ≤ (pySlice text c.«end» n.start).length
            ∧ (pySlice text c.«end» n.start).length ≤ 3
            ∧ ∀ ch ∈ pySlice text c.«end» n.start, isGapChar ch = true then
          merge_adjacent_dates_go text (fuseSpans c n) rest
        else c :: merge_adjacent_dates_go text n rest) ∧
    (∀ c n : RecognizerResult,
      fuseSpans c n = ⟨c.entity_type, c.start, n.«end», max c.score n.score⟩) ∧
    merge_adjacent_dates "Oct 5 - 2025".toList
        [⟨"DATE_TIME".toList, 0, 5, 1⟩, ⟨"DATE_TIME".toList, 8, 12, 0⟩] =
      [⟨"DATE_TIME".toList, 0, 12, 1⟩] ∧
    merge_adjacent_dates "Oct 5 -- 2025".toList
        [⟨"DATE_TIME".toList, 0, 5, 1⟩, ⟨"DATE_TIME".toList, 9, 13, 0⟩] =
      [⟨"DATE_TIME".toList, 0, 5, 1⟩, ⟨"DATE_TIME".toList, 9, 13, 0⟩] ∧
    merge_adjacent_dates "Oct 5a2025".toList
        [⟨"DATE_TIME".toList, 0, 5, 1⟩, ⟨"DATE_TIME".toList, 6, 10, 0⟩] =
      [⟨"DATE_TIME".toList, 0, 5, 1⟩, ⟨"DATE_TIME".toList, 6, 10, 0⟩] ∧
    merge_adjacent_dates "Ann Bob".toList
        [⟨"PERSON".toList, 0, 3, 1⟩, ⟨"PERSON".toList, 4, 7, 1⟩] =
      [⟨"PERSON".toList, 0, 3, 1⟩, ⟨"PERSON".toList, 4, 7, 1⟩] := by
  refine ⟨?_, fun c n => rfl, by decide, by decide, by decide, by decide⟩
  intro text c n rest
  have hiff : (c.entity_type = "DATE_TIME".toList
      ∧ n.entity_type = "DATE_TIME".toList
      ∧ (pySlice text c.«end» n.start).length ≤ 3
      ∧ gapRegexMatch (pySlice text c.«end» n.start) = true) ↔
      (c.entity_type = "DATE_TIME".toList ∧ n.entity_type = "DATE_TIME".toList
      ∧ 1 ≤ (pySlice text c.«end» n.start).length
      ∧ (pySlice text c.«end» n.start).length ≤ 3
      ∧ ∀ ch ∈ pySlice text c.«end» n.start, isGapChar ch = true) := by
    cases hg : pySlice text c.«end» n.start with
    | nil => simp [gapRegexMatch]
    | cons a as =>
      simp only [gapRegexMatch, List.isEmpty_cons, Bool.not_false, Bool.true_and,
        List.all_eq_true, List.length_cons]
      constructor
      · rintro ⟨h1, h2, h3, h4⟩
        exact ⟨h1, h2, by omega, h3, h4⟩
      · rintro ⟨h1, h2, -, h3, h4⟩
        exact ⟨h1, h2, h3, h4⟩
  rw [merge_adjacent_dates_go]
  exact if_congr hiff rfl rfl

/-! ## The Restorer (claim C5) -/

theorem mem_insertByKeyLenDesc (p x : Str × Str) (l : PyDict) :
    x ∈ insertByKeyLenDesc p l ↔ x = p ∨ x ∈ l := by
  induction l with
  | nil => simp [insertByKeyLenDesc]
  | cons y ys ih =>
    simp only [insertByKeyLenDesc]
    split
    · simp [List.mem_cons]
    · simp only [List.mem_cons, ih]
      tauto

theorem pairwise_insertByKeyLenDesc (p : Str × Str) (l : PyDict)
    (h : l.Pairwise (fun a b => b.1.length ≤ a.1.length)) :
    (insertByKeyLenDesc p l).Pairwise (fun a b => b.1.length ≤ a.1.length) := by
  induction l with
  | nil => simp [insertByKeyLenDesc]
  | cons y ys ih =>
    rw [List.pairwise_cons] at h
    simp only [insertByKeyLenDesc]
    split
    · rename_i hge
      rw [List.pairwise_cons]
      constructor
      · intro z hz
        rcases List.mem_cons.mp hz with rfl | hz
        · omega
        · have := h.1 z hz
          omega
      · rw [List.pairwise_cons]
        exact h
    · rename_i hlt
      rw [List.pairwise_cons]
      refine ⟨?_, ih h.2⟩
      intro z hz
      rcases (mem_insertByKeyLenDesc p z ys).mp hz with rfl | hz
      · omega
      · exact h.1 z hz

theorem sortByKeyLenDesc_sorted (l : PyDict) :
    (sortByKeyLenDesc l).Pairwise (fun a b => b.1.length ≤ a.1.length) := by
  induction l with
  | nil => simp [sortByKeyLenDesc]
  | cons y ys ih => exact pairwise_insertByKeyLenDesc y _ ih

theorem mem_sortByKeyLenDesc (x : Str × Str) (l : PyDict) :
    x ∈ sortByKeyLenDesc l ↔ x ∈ l := by
  induction l with
  | nil => simp [sortByKeyLenDesc]
  | cons y ys ih =>
    simp only [sortByKeyLenDesc, mem_insertByKeyLenDesc, List.mem_cons, ih]

theorem occursB_nil (s : Str) : occursB [] s = true := by
  cases s <;> simp [occursB, isPre]

theorem replaceGo_not_occurs (pat rep s : Str) (h : occursB pat s = false) :
    replaceGo pat rep 0 s = s := by
  induction s with
  | nil => simp [replaceGo]
  | cons c cs ih =>
    rw [occursB, Bool.or_eq_false_iff] at h
    rw [replaceGo, if_neg (by simp [h.1]), ih h.2]

theorem pyReplace_not_occurs (s pat rep : Str) (h : occursB pat s = false) :
    pyReplace s pat rep = s := by
  have hne : pat ≠ [] := by
    intro he
    rw [he, occursB_nil] at h
    cases h
  rw [pyReplace, if_neg hne]
  exact replaceGo_not_occurs pat rep s h

theorem foldl_replace_not_occurs (l : PyDict) (t : Str)
    (h : ∀ p ∈ l, occursB p.1 t = false) :
    l.foldl (fun t p => pyReplace t p.1 p.2) t = t := by
  induction l with
  | nil => rfl
  | cons p ps ih =>
    rw [List.foldl_cons, pyReplace_not_occurs t p.1 p.2 (h p (List.mem_cons_self p ps))]
    exact ih (fun q hq => h q (List.mem_cons_of_mem p hq))

/-- C5.  The Restorer is a pure total function: it processes mapping keys in
order of (weakly) decreasing key length; on the documented two-key example it
restores `"Bob met Al"` exactly; and a text in which no mapping key occurs is
returned unchanged (no failure on unmatched input). -/
theorem C5_restorer_totality_and_order :
    (∀ mapping : PyDict,
      (sortByKeyLenDesc mapping).Pairwise (fun a b => b.1.length ≤ a.1.length)) ∧
    unmask "\x7bName_ab1\x7d met \x7bName_ab\x7d".toList
        [("\x7bName_ab\x7d".toList, "Al".toList),
         ("\x7bName_ab1\x7d".toList, "Bob".toList)] = "Bob met Al".toList ∧
    (∀ (t : Str) (mapping : PyDict),
      (∀ p ∈ mapping, occursB p.1 t = false) → unmask t mapping = t) := by
  refine ⟨sortByKeyLenDesc_sorted, by decide, ?_⟩
  intro t mapping h
  rw [unmask]
  exact foldl_replace_not_occurs _ t
    (fun p hp => h p ((mem_sortByKeyLenDesc p mapping).mp hp))

/-- Witness for C5: a text containing no mapping key is left unchanged. -/
theorem C5_restorer_totality_and_order_witness :
    unmask "xy".toList [("\x7bA\x7d".toList, "B".toList)] = "xy".toList :=
  C5_restorer_totality_and_order.2.2 "xy".toList
    [("\x7bA\x7d".toList, "B".toList)] (by decide)

/-! ## Concrete scenario engine -/

/-- A concrete engine instance for the scenario theorems: no user allow-list
entries, empty seed, and collaborators that always fail to parse. -/
def masker0 : PrivalyseMasker :=
  PrivalyseMasker.init [] [] (fun _ => none) (fun _ => none)

/-! ## End-to-end person/email scenario (claim C6) -/

/-- C6, counterexample.  On the documented input with PERSON and
EMAIL_ADDRESS spans, the masked output contains no `\x7bUser_...` token at all
(the person handler emits `\x7bName_<hash>\x7d`), although it does contain the
expected `\x7bEmail_at_dailybugle.com\x7d` token. -/
theorem C6_person_email_scenario_counterexample :
    occursB "\x7bUser_".toList
        (mask masker0 "Contact Peter Parker at peter.parker@dailybugle.com.".toList
          [⟨"PERSON".toList, 8, 20, 1⟩, ⟨"EMAIL_ADDRESS".toList, 24, 51, 1⟩]).1
      = false ∧
    occursB "\x7bEmail_at_dailybugle.com\x7d".toList
        (mask masker0 "Contact Peter Parker at peter.parker@dailybugle.com.".toList
          [⟨"PERSON".toList, 8, 20, 1⟩, ⟨"EMAIL_ADDRESS".toList, 24, 51, 1⟩]).1
      = true := by decide

/-- C6, amended.  On the documented input the masked output is exactly
`"Contact \x7bName_31c3b\x7d at \x7bEmail_at_dailybugle.com\x7d."` (with
`31c3b` the seeded hash suffix of `"Peter Parker"`), the mapping records both
placeholders, and unmasking a synthetic response that echoes the two tokens
restores `"Peter Parker"` and the original email address exactly. -/
theorem C6_person_email_scenario_amended :
    mask masker0 "Contact Peter Parker at peter.parker@dailybugle.com.".toList
        [⟨"PERSON".toList, 8, 20, 1⟩, ⟨"EMAIL_ADDRESS".toList, 24, 51, 1⟩] =
      ("Contact \x7bName_31c3b\x7d at \x7bEmail_at_dailybugle.com\x7d.".toList,
        [("\x7bEmail_at_dailybugle.com\x7d".toList,
           "peter.parker@dailybugle.com".toList),
         ("\x7bName_31c3b\x7d".toList, "Peter Parker".toList)]) ∧
    unmask "\x7bName_31c3b\x7d wrote from \x7bEmail_at_dailybugle.com\x7d".toList
        [("\x7bEmail_at_dailybugle.com\x7d".toList,
           "peter.parker@dailybugle.com".toList),
         ("\x7bName_31c3b\x7d".toList, "Peter Parker".toList)] =
      "Peter Parker wrote from peter.parker@dailybugle.com".toList := by decide

/-! ## Location strategy (claim C7) -/

/-- The claim's description of the location strategy, as a definition: recover
a capitalized, digit-free city token from the comma-separated literal checking
both the "City, Street Number" ordering (city is the first segment) and the
"Street Number, City" ordering (city is the last segment). -/
def location_spec_both_orders (m : PrivalyseMasker) (value : Str) : Option Str :=
  let lower_val := pyLower value
  let has_digits := value.any Char.isDigit
  let has_address_indicator := ADDRESS_INDICATORS.any (fun ind => occursB ind lower_val)
  if has_digits || has_address_indicator then
    let cityOK := fun (s : Str) => !s.isEmpty && !s.any Char.isDigit && headUpper s
    let first := pyStrip ((pySplit ',' value).headD [])
    let last := pyStrip ((pySplit ',' value).getLastD [])
    if occursB [','] value && cityOK first then
      some (braceTok ("Address_in_".toList ++ first))
    else if occursB [','] value && cityOK last then
      some (braceTok ("Address_in_".toList ++ last))
    else some (braceTok ("Address_".toList ++ generate_hash_suffix value 5 m.seed))
  else none

/-- C7, counterexample.  For the "City, Street Number" literal
`"Berlin, Hauptstrasse 5"` the code only inspects the *last* comma-separated
segment (`"Hauptstrasse 5"`, rejected for its digit) and emits
`\x7bAddress_05c85\x7d`, while the claim's both-orderings strategy recovers
`Berlin` and emits `\x7bAddress_in_Berlin\x7d`. -/
theorem C7_location_strategy_counterexample :
    surrogate_for_location masker0 "Berlin, Hauptstrasse 5".toList =
      some "\x7bAddress_05c85\x7d".toList ∧
    location_spec_both_orders masker0 "Berlin, Hauptstrasse 5".toList =
      some "\x7bAddress_in_Berlin\x7d".toList ∧
    surrogate_for_location masker0 "Berlin, Hauptstrasse 5".toList ≠
      location_spec_both_orders masker0 "Berlin, Hauptstrasse 5".toList := by decide

/-- C7, amended.  A LOCATION literal with no digit and no street-suffix
keyword is left unmasked (`none`, hence no mapping entry).  Otherwise the
synthesizer consults only the *last* comma-separated segment ("Street Number,
City" ordering): if that segment (stripped) is nonempty, digit-free and
capitalized it emits `\x7bAddress_in_<City>\x7d`, and in every other case —
including "City, Street Number" literals — it emits `\x7bAddress_<hash>\x7d`. -/
theorem C7_location_strategy_amended :
    (∀ (m : PrivalyseMasker) (value : Str),
      value.any Char.isDigit = false →
      ADDRESS_INDICATORS.any (fun ind => occursB ind (pyLower value)) = false →
      surrogate_for_location m value = none) ∧
    (∀ (m : PrivalyseMasker) (value : Str),
      (value.any Char.isDigit
        || ADDRESS_INDICATORS.any (fun ind => occursB ind (pyLower value))) = true →
      occursB [','] value = true →
      (!(pyStrip ((pySplit ',' value).getLastD [])).isEmpty
        && !(pyStrip ((pySplit ',' value).getLastD [])).any Char.isDigit
        && headUpper (pyStrip ((pySplit ',' value).getLastD []))) = true →
      surrogate_for_location m value =
        some (braceTok ("Address_in_".toList ++ pyStrip ((pySplit ',' value).getLastD [])))) ∧
    (∀ (m : PrivalyseMasker) (value : Str),
      (value.any Char.isDigit
        || ADDRESS_INDICATORS.any (fun ind => occursB ind (pyLower value))) = true →
      (occursB [','] value = false ∨
        (!(pyStrip ((pySplit ',' value).getLastD [])).isEmpty
          && !(pyStrip ((pySplit ',' value).getLastD [])).any Char.isDigit
          && headUpper (pyStrip ((pySplit ',' value).getLastD []))) = false) →
      surrogate_for_location m value =
        some (braceTok ("Address_".toList ++ generate_hash_suffix value 5 m.seed))) := by
  refine ⟨?_, ?_, ?_⟩
  · intro m value h1 h2
    rw [surrogate_for_location]
    simp only [h1, h2, Bool.or_self, Bool.false_eq_true, if_false]
  · intro m value h1 h2 h3
    rw [surrogate_for_location]
    simp only [h1, if_true, h2, h3]
  · intro m value h1 h2
    rw [surrogate_for_location]
    rcases h2 with h2 | h2
    · simp only [h1, if_true, h2, Bool.false_eq_true, if_false]
    · simp only [h1, if_true, h2, Bool.false_eq_true, if_false]
      split <;> rfl

/-- Witness for C7: the generic location `"New York"` is left unmasked. -/
theorem C7_location_strategy_amended_witness :
    surrogate_for_location masker0 "New York".toList = none :=
  C7_location_strategy_amended.1 masker0 "New York".toList (by decide) (by decide)

/-! ## Allow-list filtering (claim C8) -/

/-- The claim's description of the allow-list filter, as a definition: spans
whose lower-cased literal matches an allow-list entry are removed from the
candidate set *before* overlap resolution and date merging. -/
def mask_filter_first (m : PrivalyseMasker) (text : Str)
    (results : List RecognizerResult) : Str × PyDict :=
  mask m text (results.filter
    (fun r => !(m.allow_list.contains (pyLower (pySlice text r.start r.«end»)))))

/-- C8, counterexample.  In `"mex"`, the allow-listed span `"me"` (a built-in
pronoun stop word, score 1) overlaps the span `"ex"` (score 0).  The code
resolves overlaps *first*, so `"me"` wins and is then skipped by the in-loop
allow-list check: nothing is masked.  Filtering before overlap resolution, as
the claim states, would let `"ex"` survive and be masked. -/
theorem C8_allow_list_timing_counterexample :
    mask masker0 "mex".toList
        [⟨"NRP".toList, 0, 2, 1⟩, ⟨"NRP".toList, 1, 3, 0⟩] =
      ("mex".toList, []) ∧
    mask_filter_first masker0 "mex".toList
        [⟨"NRP".toList, 0, 2, 1⟩, ⟨"NRP".toList, 1, 3, 0⟩] =
      ("m\x7bNationality_54d54\x7d".toList,
        [("\x7bNationality_54d54\x7d".toList, "ex".toList)]) ∧
    mask masker0 "mex".toList
        [⟨"NRP".toList, 0, 2, 1⟩, ⟨"NRP".toList, 1, 3, 0⟩] ≠
      mask_filter_first masker0 "mex".toList
        [⟨"NRP".toList, 0, 2, 1⟩, ⟨"NRP".toList, 1, 3, 0⟩] := by decide

/-- C8, amended.  A span whose lower-cased literal matches an allow-list entry
(user entries are lower-cased at construction, so matching is
case-insensitive: `"Acme Corp"` suppresses `"ACME CORP"`, `"acme corp"` and
`"Acme Corp"` alike) is skipped *during the substitution loop* — after overlap
resolution and date merging — and contributes neither a placeholder in the
masked text nor a mapping entry. -/
theorem C8_allow_list_filtering_amended :
    (∀ (m : PrivalyseMasker) (text : Str) (r : RecognizerResult)
        (rest : List RecognizerResult) (cur : Str) (mp : PyDict),
      pyLower (pySlice text r.start r.«end») ∈ m.allow_list →
      mask_go m text (r :: rest) cur mp = mask_go m text rest cur mp) ∧
    (PrivalyseMasker.init ["Acme Corp".toList] [] (fun _ => none)
        (fun _ => none)).allow_list.contains "acme corp".toList = true ∧
    mask (PrivalyseMasker.init ["Acme Corp".toList] [] (fun _ => none) (fun _ => none))
        "ACME CORP".toList [⟨"NRP".toList, 0, 9, 1⟩] = ("ACME CORP".toList, []) ∧
    mask (PrivalyseMasker.init ["Acme Corp".toList] [] (fun _ => none) (fun _ => none))
        "acme corp".toList [⟨"NRP".toList, 0, 9, 1⟩] = ("acme corp".toList, []) ∧
    mask (PrivalyseMasker.init ["Acme Corp".toList] [] (fun _ => none) (fun _ => none))
        "Acme Corp".toList [⟨"NRP".toList, 0, 9, 1⟩] = ("Acme Corp".toList, []) := by
  refine ⟨?_, by decide, by decide, by decide, by decide⟩
  intro m text r rest cur mp h
  rw [mask_go, if_pos h]

/-- Witness for C8: the stop word `"me"` is skipped by the substitution loop. -/
theorem C8_allow_list_filtering_amended_witness :
    mask_go masker0 "me".toList [⟨"NRP".toList, 0, 2, 1⟩] "me".toList [] =
      mask_go masker0 "me".toList [] "me".toList [] :=
  C8_allow_list_filtering_amended.1 masker0 "me".toList ⟨"NRP".toList, 0, 2, 1⟩
    [] "me".toList [] (by decide)

/-! ## Empty input (claim C9) -/

/-- C9, counterexample.  For the whitespace-only input `" "` (no candidate
spans), `mask` returns the input text `" "` unchanged together with an empty
mapping — not the *empty* text the claim requires. -/
theorem C9_empty_input_counterexample :
    mask masker0 " ".toList [] = (" ".toList, ([] : PyDict)) ∧
    (mask masker0 " ".toList []).1 ≠ ([] : Str) := by decide

/-- C9, amended.  On an initialized engine, whenever the recognizer yields no
spans — in particular for empty or whitespace-only input — `mask` returns the
input text unchanged (empty for empty input) and an empty mapping, and does
not raise an error. -/
theorem C9_empty_input_amended (m : PrivalyseMasker) (text : Str) :
    mask m text [] = (text, []) := rfl

/-! ## Structured masking frame property (claim C10) -/

mutual
/-- The shape-preserving value transform that `mask_struct` implements:
masking each string leaf independently, leaving dict keys, list structure and
non-string leaves untouched. -/
def struct_transform (m : PrivalyseMasker) (detect : Str → List RecognizerResult) :
    PyVal → PyVal
  | .pstr s => .pstr (mask m s (detect s)).1
  | .pdict es => .pdict (struct_transform_dict m detect es)
  | .plist xs => .plist (struct_transform_list m detect xs)
  | .pother t => .pother t

/-- `struct_transform` on dict entries (keys unchanged). -/
def struct_transform_dict (m : PrivalyseMasker) (detect : Str → List RecognizerResult) :
    List (Str × PyVal) → List (Str × PyVal)
  | [] => []
  | (k, v) :: rest =>
    (k, struct_transform m detect v) :: struct_transform_dict m detect rest

/-- `struct_transform` on list items. -/
def struct_transform_list (m : PrivalyseMasker) (detect : Str → List RecognizerResult) :
    List PyVal → List PyVal
  | [] => []
  | x :: rest => struct_transform m detect x :: struct_transform_list m detect rest
end

mutual
/-- The per-leaf mappings of a value, in depth-first traversal order. -/
def leaf_mappings (m : PrivalyseMasker) (detect : Str → List RecognizerResult) :
    PyVal → List PyDict
  | .pstr s => [(mask m s (detect s)).2]
  | .pdict es => leaf_mappings_dict m detect es
  | .plist xs => leaf_mappings_list m detect xs
  | .pother _ => []

/-- Per-leaf mappings of dict entries, in order. -/
def leaf_mappings_dict (m : PrivalyseMasker) (detect : Str → List RecognizerResult) :
    List (Str × PyVal) → List PyDict
  | [] => []
  | (_, v) :: rest => leaf_mappings m detect v ++ leaf_mappings_dict m detect rest

/-- Per-leaf mappings of list items, in order. -/
def leaf_mappings_list (m : PrivalyseMasker) (detect : Str → List RecognizerResult) :
    List PyVal → List PyDict
  | [] => []
  | x :: rest => leaf_mappings m detect x ++ leaf_mappings_list m detect rest
end

mutual
theorem mask_struct_go_spec (m : PrivalyseMasker)
    (detect : Str → List RecognizerResult) :
    ∀ (v : PyVal) (acc : PyDict),
      mask_struct_go m detect v acc =
        (struct_transform m detect v, (leaf_mappings m detect v).foldl dictUpdate acc)
  | .pstr s, acc => rfl
  | .pdict es, acc => by
    rw [mask_struct_go, mask_struct_dict_spec m detect es acc]
    rfl
  | .plist xs, acc => by
    rw [mask_struct_go, mask_struct_list_spec m detect xs acc]
    rfl
  | .pother t, acc => rfl

theorem mask_struct_dict_spec (m : PrivalyseMasker)
    (detect : Str → List RecognizerResult) :
    ∀ (es : List (Str × PyVal)) (acc : PyDict),
      mask_struct_dict m detect es acc =
        (struct_transform_dict m detect es,
          (leaf_mappings_dict m detect es).foldl dictUpdate acc)
  | [], acc => rfl
  | (k, v) :: rest, acc => by
    rw [mask_struct_dict, mask_struct_go_spec m detect v acc]
    dsimp only
    rw [mask_struct_dict_spec m detect rest
      ((leaf_mappings m detect v).foldl dictUpdate acc)]
    rw [struct_transform_dict, leaf_mappings_dict, List.foldl_append]

theorem mask_struct_list_spec (m : PrivalyseMasker)
    (detect : Str → List RecognizerResult) :
    ∀ (xs : List PyVal) (acc : PyDict),
      mask_struct_list m detect xs acc =
        (struct_transform_list m detect xs,
          (leaf_mappings_list m detect xs).foldl dictUpdate acc)
  | [], acc => rfl
  | x :: rest, acc => by
    rw [mask_struct_list, mask_struct_go_spec m detect x acc]
    dsimp only
    rw [mask_struct_list_spec m detect rest
      ((leaf_mappings m detect x).foldl dictUpdate acc)]
    rw [struct_transform_list, leaf_mappings_list, List.foldl_append]
end

theorem struct_transform_dict_eq_map (m : PrivalyseMasker)
    (detect : Str → List RecognizerResult) :
    ∀ es, struct_transform_dict m detect es =
      es.map (fun p => (p.1, struct_transform m detect p.2))
  | [] => rfl
  | (k, v) :: rest => by
    rw [struct_transform_dict, struct_transform_dict_eq_map m detect rest,
      List.map_cons]

theorem struct_transform_list_eq_map (m : PrivalyseMasker)
    (detect : Str → List RecognizerResult) :
    ∀ xs, struct_transform_list m detect xs = xs.map (struct_transform m detect)
  | [] => rfl
  | x :: rest => by
    rw [struct_transform_list, struct_transform_list_eq_map m detect rest,
      List.map_cons]

/-- C10.  The structural frame property of `mask_struct`: the returned value
is the shape-preserving transform that masks exactly the string leaves —
dict entries keep their keys (`List.map` over entries preserves the key list
and its order), lists keep their length and order, non-string leaves are
returned unchanged — and the combined mapping is the union (Python
`dict.update`, later leaves overwriting earlier ones on key collision) of the
per-leaf mappings in depth-first traversal order. -/
theorem C10_mask_struct_frame (m : PrivalyseMasker)
    (detect : Str → List RecognizerResult) (data : PyVal) :
    (mask_struct m detect data).1 = struct_transform m detect data ∧
    (mask_struct m detect data).2 = (leaf_mappings m detect data).foldl dictUpdate [] ∧
    (∀ s, struct_transform m detect (.pstr s) = .pstr (mask m s (detect s)).1) ∧
    (∀ es, struct_transform m detect (.pdict es) =
      .pdict (es.map (fun p => (p.1, struct_transform m detect p.2)))) ∧
    (∀ xs, struct_transform m detect (.plist xs) =
      .plist (xs.map (struct_transform m detect))) ∧
    (∀ t, struct_transform m detect (.pother t) = .pother t) := by
  refine ⟨?_, ?_, fun s => rfl, ?_, ?_, fun t => rfl⟩
  · rw [mask_struct, mask_struct_go_spec m detect data []]
  · rw [mask_struct, mask_struct_go_spec m detect data []]
  · intro es
    rw [struct_transform, struct_transform_dict_eq_map m detect es]
  · intro xs
    rw [struct_transform, struct_transform_list_eq_map m detect xs]

/-! ## Round trip (claim C1): brace discipline and replacement lemmas -/

/-- A string containing neither brace character. -/
abbrev NoBrace (s : Str) : Prop := ∀ c ∈ s, c ≠ lbr ∧ c ≠ rbr

/-- A well-formed placeholder key: brace-delimited with a brace-free interior. -/
def KeyClean (k : Str) : Prop := ∃ w, k = lbr :: w ++ [rbr] ∧ NoBrace w

theorem NoBrace.append {s t : Str} (hs : NoBrace s) (ht : NoBrace t) :
    NoBrace (s ++ t) := by
  intro c hc
  rcases List.mem_append.mp hc with h | h
  · exact hs c h
  · exact ht c h

theorem braceTok_clean {inner : Str} (h : NoBrace inner) : KeyClean (braceTok inner) :=
  ⟨inner, rfl, h⟩

theorem char_toUpper_ne_brace (c : Char) (h1 : c ≠ lbr) (h2 : c ≠ rbr) :
    c.toUpper ≠ lbr ∧ c.toUpper ≠ rbr := by
  unfold Char.toUpper
  dsimp only
  split
  · rename_i h
    have ha : 97 ≤ c.toNat := h.1
    have hb : c.toNat ≤ 122 := h.2
    generalize c.toNat = n at ha hb
    interval_cases n <;> exact ⟨by decide, by decide⟩
  · exact ⟨h1, h2⟩

theorem char_toLower_ne_brace (c : Char) (h1 : c ≠ lbr) (h2 : c ≠ rbr) :
    c.toLower ≠ lbr ∧ c.toLower ≠ rbr := by
  unfold Char.toLower
  dsimp only
  split
  · rename_i h
    have ha : 65 ≤ c.toNat := h.1
    have hb : c.toNat ≤ 90 := h.2
    generalize c.toNat = n at ha hb
    interval_cases n <;> exact ⟨by decide, by decide⟩
  · exact ⟨h1, h2⟩

theorem NoBrace_take {s : Str} (h : NoBrace s) (n : Nat) : NoBrace (s.take n) :=
  fun c hc => h c (List.mem_of_mem_take hc)

theorem NoBrace_pySlice {s : Str} (h : NoBrace s) (a b : Nat) :
    NoBrace (pySlice s a b) :=
  fun c hc => NoBrace_take h b c (List.mem_of_mem_drop hc)

/-- `isPre` holds of a string against itself followed by anything. -/
theorem isPre_append_self (k r : Str) : isPre k (k ++ r) = true := by
  induction k with
  | nil => rfl
  | cons a as ih => simp [isPre, ih]

/-- Skipping exactly the length of `w` consumes `w`. -/
theorem replaceGo_skip_consume (pat rep w r : Str) :
    replaceGo pat rep w.length (w ++ r) = replaceGo pat rep 0 r := by
  induction w with
  | nil => rfl
  | cons c cs ih => simpa [replaceGo] using ih

/-- No occurrence of a `\x7b`-initial pattern can start inside a
`\x7b`-free prefix. -/
theorem replaceGo_push (k v s r : Str) (hk : ∃ t, k = lbr :: t)
    (hs : ∀ c ∈ s, c ≠ lbr) :
    replaceGo k v 0 (s ++ r) = s ++ replaceGo k v 0 r := by
  obtain ⟨t, rfl⟩ := hk
  induction s with
  | nil => rfl
  | cons c cs ih =>
    have hc : c ≠ lbr := hs c (List.mem_cons_self c cs)
    have hpre : isPre (lbr :: t) (c :: (cs ++ r)) = false := by
      simp only [isPre, Bool.and_eq_false_iff]
      left
      simp [Ne.symm hc]
    rw [List.cons_append, replaceGo, hpre]
    simp only [Bool.false_eq_true, if_false, List.cons_append]
    rw [ih (fun x hx => hs x (List.mem_cons_of_mem c hx))]

/-- A `\x7b`-free string is left unchanged by `replaceGo` with a clean key. -/
theorem replaceGo_nobrace (k v s : Str) (hk : ∃ t, k = lbr :: t)
    (hs : ∀ c ∈ s, c ≠ lbr) : replaceGo k v 0 s = s := by
  have := replaceGo_push k v s [] hk hs
  simpa [replaceGo] using this

/-- Replacing a clean key at its own occurrence. -/
theorem replaceGo_self (k v r : Str) (hk : KeyClean k) :
    replaceGo k v 0 (k ++ r) = v ++ replaceGo k v 0 r := by
  obtain ⟨w, rfl, hw⟩ := hk
  have hsh : (lbr :: w ++ [rbr]) ++ r = lbr :: ((w ++ [rbr]) ++ r) := by simp
  rw [hsh]
  have hpre : isPre (lbr :: w ++ [rbr]) (lbr :: ((w ++ [rbr]) ++ r)) = true := by
    have := isPre_append_self (lbr :: w ++ [rbr]) r
    simpa [List.append_assoc] using this
  simp only [replaceGo, hpre, if_true]
  have hlen : (lbr :: w ++ [rbr]).length - 1 = (w ++ [rbr]).length := by simp
  rw [hlen, replaceGo_skip_consume]

/-- Two clean keys with `rbr`-free interiors that match as prefixes are equal. -/
theorem clean_tail_eq (w : Str) : ∀ (w' t : Str), (∀ c ∈ w, c ≠ rbr) →
    (∀ c ∈ w', c ≠ rbr) →
    isPre (w ++ [rbr]) (w' ++ rbr :: t) = true → w = w' := by
  induction w with
  | nil =>
    intro w' t _ hw' hpre
    cases w' with
    | nil => rfl
    | cons c w'' =>
      exfalso
      simp only [List.nil_append, List.cons_append, isPre, Bool.and_eq_true,
        decide_eq_true_eq] at hpre
      exact hw' c (List.mem_cons_self c w'') hpre.1.symm
  | cons a w₂ ih =>
    intro w' t hw hw' hpre
    cases w' with
    | nil =>
      exfalso
      simp only [List.cons_append, List.nil_append, isPre, Bool.and_eq_true,
        decide_eq_true_eq] at hpre
      exact hw a (List.mem_cons_self a w₂) hpre.1
    | cons c w₂' =>
      simp only [List.cons_append, isPre, Bool.and_eq_true, decide_eq_true_eq] at hpre
      have : w₂ = w₂' :=
        ih w₂' t (fun x hx => hw x (List.mem_cons_of_mem a hx))
          (fun x hx => hw' x (List.mem_cons_of_mem c hx)) hpre.2
      rw [hpre.1, this]

/-- A clean key never matches at the start of a *different* clean key. -/
theorem isPre_clean_ne (k k' r : Str) (hk : KeyClean k) (hk' : KeyClean k')
    (hne : k ≠ k') : isPre k (k' ++ r) = false := by
  obtain ⟨w, rfl, hw⟩ := hk
  obtain ⟨w', rfl, hw'⟩ := hk'
  by_contra hcon
  rw [Bool.not_eq_false] at hcon
  simp only [List.cons_append, isPre, Bool.and_eq_true, decide_eq_true_eq] at hcon
  have : w = w' := by
    apply clean_tail_eq w w' r (fun c hc => (hw c hc).2) (fun c hc => (hw' c hc).2)
    have := hcon.2
    simpa [List.append_eq, List.append_assoc] using this
  exact hne (by rw [this])

/-- Replacement walks over a different clean key without touching it. -/
theorem replaceGo_other (k k' v r : Str) (hk : KeyClean k) (hk' : KeyClean k')
    (hne : k ≠ k') :
    replaceGo k v 0 (k' ++ r) = k' ++ replaceGo k v 0 r := by
  have hpre := isPre_clean_ne k k' r hk hk' hne
  obtain ⟨w', hk'e, hw'⟩ := hk'
  subst hk'e
  have hsh : (lbr :: w' ++ [rbr]) ++ r = lbr :: ((w' ++ [rbr]) ++ r) := by simp
  rw [hsh]
  rw [hsh] at hpre
  simp only [replaceGo, hpre, Bool.false_eq_true, if_false]
  have hpush : replaceGo k v 0 ((w' ++ [rbr]) ++ r) =
      (w' ++ [rbr]) ++ replaceGo k v 0 r := by
    apply replaceGo_push k v (w' ++ [rbr]) r
    · obtain ⟨w, rfl, -⟩ := hk
      exact ⟨w ++ [rbr], rfl⟩
    · intro c hc
      rcases List.mem_append.mp hc with h | h
      · exact (hw' c h).1
      · simp only [List.mem_singleton] at h
        subst h
        decide
  rw [hpush]
  simp

/-! ## Round trip: decomposition of the substitution loop -/

/-- What the substitution loop does with one span: `none` when the span is
skipped (allow-listed literal or a `none` surrogate), `some key` when it is
masked. -/
def maskAction (m : PrivalyseMasker) (text : Str) (r : RecognizerResult) :
    Option Str :=
  if pyLower (pySlice text r.start r.«end») ∈ m.allow_list then none
  else generate_surrogate m r.entity_type (pySlice text r.start r.«end»)

/-- The text `[0, n)` with the masked spans of `D` (a descending,
non-overlapping span list) holding the contents given by `f`. -/
def renderMix (m : PrivalyseMasker) (text : Str) (f : RecognizerResult → Str) :
    List RecognizerResult → Nat → Str
  | [], n => text.take n
  | r :: D, n =>
    match maskAction m text r with
    | none => renderMix m text f D n
    | some _ => renderMix m text f D r.start ++ f r ++ pySlice text r.«end» n

/-- The mapping accumulated by the substitution loop over `D`. -/
def maskPairs (m : PrivalyseMasker) (text : Str) :
    List RecognizerResult → PyDict → PyDict
  | [], mp => mp
  | r :: D, mp =>
    match maskAction m text r with
    | none => maskPairs m text D mp
    | some k => maskPairs m text D (dictInsert mp k (pySlice text r.start r.«end»))

theorem take_slice_slice (text : Str) (s e n : Nat) (h1 : s ≤ e) (h2 : e ≤ n) :
    text.take s ++ (pySlice text s e ++ pySlice text e n) = text.take n := by
  unfold pySlice
  have a1 : text.take s ++ (text.take e).drop s = text.take e := by
    have h := List.take_append_drop s (text.take e)
    rwa [List.take_take, Nat.min_eq_left h1] at h
  have a2 : text.take e ++ (text.take n).drop e = text.take n := by
    have h := List.take_append_drop e (text.take n)
    rwa [List.take_take, Nat.min_eq_left h2] at h
  rw [← List.append_assoc, a1, a2]

/-- Filling every masked slot with its literal reconstructs the text prefix. -/
theorem renderMix_lit (m : PrivalyseMasker) (text : Str) (D : List RecognizerResult) :
    ∀ n : Nat, (∀ r ∈ D, r.start ≤ r.«end» ∧ r.«end» ≤ n) →
      D.Pairwise (fun a b => b.«end» ≤ a.start) →
      renderMix m text (fun r => pySlice text r.start r.«end») D n = text.take n := by
  induction D with
  | nil => intro n _ _; rfl
  | cons r D ih =>
    intro n hb hp
    rw [List.pairwise_cons] at hp
    have hr := hb r (List.mem_cons_self r D)
    rcases h : maskAction m text r with _ | k
    · simp only [renderMix, h]
      exact ih n (fun x hx => hb x (List.mem_cons_of_mem r hx)) hp.2
    · simp only [renderMix, h]
      rw [ih r.start (fun x hx => ⟨(hb x (List.mem_cons_of_mem r hx)).1, hp.1 x hx⟩) hp.2]
      rw [List.append_assoc]
      exact take_slice_slice text r.start r.«end» n hr.1 hr.2

/-- The substitution loop of `mask`, on a descending non-overlapping span
list whose spans live inside `[0, n)`, produces exactly the mixed rendering
with every masked slot holding its placeholder key, and the corresponding
mapping. -/
theorem mask_go_renderMix (m : PrivalyseMasker) (text : Str)
    (D : List RecognizerResult) :
    ∀ (n : Nat) (suffix : Str) (mp : PyDict),
      n ≤ text.length →
      (∀ r ∈ D, r.start < r.«end» ∧ r.«end» ≤ n) →
      D.Pairwise (fun a b => b.«end» ≤ a.start) →
      mask_go m text D (text.take n ++ suffix) mp =
        (renderMix m text (fun r => (maskAction m text r).getD []) D n ++ suffix,
          maskPairs m text D mp) := by
  induction D with
  | nil => intro n suffix mp _ _ _; rfl
  | cons r D ih =>
    intro n suffix mp hn hb hp
    rw [List.pairwise_cons] at hp
    have hr := hb r (List.mem_cons_self r D)
    have hlen : (text.take n).length = n := by
      rw [List.length_take]
      omega
    by_cases hal : pyLower (pySlice text r.start r.«end») ∈ m.allow_list
    · have hma : maskAction m text r = none := by rw [maskAction, if_pos hal]
      rw [mask_go]
      simp only [if_pos hal]
      rw [ih n suffix mp hn (fun x hx => hb x (List.mem_cons_of_mem r hx)) hp.2]
      simp only [renderMix, maskPairs, hma]
    · rcases hs : generate_surrogate m r.entity_type (pySlice text r.start r.«end»)
        with _ | k
      · have hma : maskAction m text r = none := by
          rw [maskAction, if_neg hal]; exact hs
        rw [mask_go]
        simp only [if_neg hal, hs]
        rw [ih n suffix mp hn (fun x hx => hb x (List.mem_cons_of_mem r hx)) hp.2]
        simp only [renderMix, maskPairs, hma]
      · have hma : maskAction m text r = some k := by
          rw [maskAction, if_neg hal]; exact hs
        rw [mask_go]
        simp only [if_neg hal, hs]
        have htake : (text.take n ++ suffix).take r.start = text.take r.start := by
          rw [List.take_append_of_le_length (by omega), List.take_take,
            Nat.min_eq_left (by omega)]
        have hdrop : (text.take n ++ suffix).drop r.«end» =
            pySlice text r.«end» n ++ suffix := by
          rw [List.drop_append_of_le_length (by omega)]
          rfl
        rw [htake, hdrop]
        have hcur : text.take r.start ++ k ++ (pySlice text r.«end» n ++ suffix) =
            text.take r.start ++ (k ++ (pySlice text r.«end» n ++ suffix)) := by
          simp [List.append_assoc]
        rw [List.append_assoc, ih r.start (k ++ (pySlice text r.«end» n ++ suffix))
          (dictInsert mp k (pySlice text r.start r.«end»)) (by omega)
          (fun x hx => ⟨(hb x (List.mem_cons_of_mem r hx)).1, hp.1 x hx⟩) hp.2]
        simp only [renderMix, maskPairs, hma, Option.getD_some]
        simp [List.append_assoc]

/-! ## Round trip: pipeline-shape lemmas -/

theorem remove_overlaps_go_subset (l : List RecognizerResult) :
    ∀ c, ∀ y ∈ remove_overlaps_go c l, y = c ∨ y ∈ l := by
  induction l with
  | nil =>
    intro c y hy
    simp only [remove_overlaps_go, List.mem_singleton] at hy
    exact Or.inl hy
  | cons n rest ih =>
    intro c y hy
    rw [remove_overlaps_go] at hy
    split at hy
    · split at hy
      · rcases ih n y hy with h | h
        · exact Or.inr (h ▸ List.mem_cons_self n rest)
        · exact Or.inr (List.mem_cons_of_mem n h)
      · split at hy
        · rcases ih n y hy with h | h
          · exact Or.inr (h ▸ List.mem_cons_self n rest)
          · exact Or.inr (List.mem_cons_of_mem n h)
        · rcases ih c y hy with h | h
          · exact Or.inl h
          · exact Or.inr (List.mem_cons_of_mem n h)
    · rcases List.mem_cons.mp hy with h | h
      · exact Or.inl h
      · rcases ih n y h with h' | h'
        · exact Or.inr (h' ▸ List.mem_cons_self n rest)
        · exact Or.inr (List.mem_cons_of_mem n h')

theorem remove_overlaps_subset (results : List RecognizerResult) :
    ∀ y ∈ remove_overlaps results, y ∈ results := by
  intro y hy
  rw [remove_overlaps] at hy
  rcases hs : sortByStart results with _ | ⟨x, xs⟩
  · rw [hs] at hy
    cases hy
  · rw [hs] at hy
    rcases remove_overlaps_go_subset xs x y hy with h | h
    · have : y ∈ sortByStart results := by rw [hs]; exact h ▸ List.mem_cons_self x xs
      exact (mem_sortByStart y results).mp this
    · have : y ∈ sortByStart results := by rw [hs]; exact List.mem_cons_of_mem x h
      exact (mem_sortByStart y results).mp this

theorem insertByStart_top (x : RecognizerResult) (l : List RecognizerResult)
    (h : ∀ y ∈ l, x.start ≤ y.start) : insertByStart x l = x :: l := by
  cases l with
  | nil => rfl
  | cons y ys =>
    rw [insertByStart, if_pos (h y (List.mem_cons_self y ys))]

theorem sortByStart_eq_of_sorted (l : List RecognizerResult)
    (h : l.Pairwise (fun a b => a.start ≤ b.start)) : sortByStart l = l := by
  induction l with
  | nil => rfl
  | cons x xs ih =>
    rw [List.pairwise_cons] at h
    rw [sortByStart, ih h.2, insertByStart_top x xs h.1]

theorem merge_go_spec (text : Str) (l : List RecognizerResult) :
    ∀ c, (∀ x ∈ l, c.«end» ≤ x.start) →
      l.Pairwise (fun a b => a.«end» ≤ b.start) →
      c.start < c.«end» ∧ c.«end» ≤ text.length →
      (∀ x ∈ l, x.start < x.«end» ∧ x.«end» ≤ text.length) →
      (∀ f ∈ merge_adjacent_dates_go text c l, c.start ≤ f.start) ∧
      (merge_adjacent_dates_go text c l).Pairwise (fun a b => a.«end» ≤ b.start) ∧
      (∀ f ∈ merge_adjacent_dates_go text c l,
        f.start < f.«end» ∧ f.«end» ≤ text.length) ∧
      (∀ f ∈ merge_adjacent_dates_go text c l,
        f.entity_type = c.entity_type ∨ ∃ x ∈ l, f.entity_type = x.entity_type) := by
  induction l with
  | nil =>
    intro c _ _ hc _
    refine ⟨?_, ?_, ?_, ?_⟩ <;> simp [merge_adjacent_dates_go]
    · exact hc
  | cons n rest ih =>
    intro c hmin hp hc hv
    rw [List.pairwise_cons] at hp
    have hcn : c.«end» ≤ n.start := hmin n (List.mem_cons_self n rest)
    have hn := hv n (List.mem_cons_self n rest)
    have hvrest : ∀ x ∈ rest, x.start < x.«end» ∧ x.«end» ≤ text.length :=
      fun x hx => hv x (List.mem_cons_of_mem n hx)
    rw [merge_adjacent_dates_go]
    split
    · -- fuse c and n
      have hfused : (fuseSpans c n).start < (fuseSpans c n).«end» ∧
          (fuseSpans c n).«end» ≤ text.length := by
        simp only [fuseSpans]
        omega
      have h := ih (fuseSpans c n) hp.1 hp.2 hfused hvrest
      refine ⟨fun f hf => h.1 f hf, h.2.1, h.2.2.1, ?_⟩
      intro f hf
      rcases h.2.2.2 f hf with he | ⟨x, hx, he⟩
      · exact Or.inl he
      · exact Or.inr ⟨x, List.mem_cons_of_mem n hx, he⟩
    · -- emit c, continue with n
      have h := ih n hp.1 hp.2 hn hvrest
      refine ⟨?_, ?_, ?_, ?_⟩
      · intro f hf
        rcases List.mem_cons.mp hf with rfl | hf
        · exact le_refl _
        · have := h.1 f hf
          omega
      · rw [List.pairwise_cons]
        refine ⟨?_, h.2.1⟩
        intro f hf
        have := h.1 f hf
        omega
      · intro f hf
        rcases List.mem_cons.mp hf with rfl | hf
        · exact hc
        · exact h.2.2.1 f hf
      · intro f hf
        rcases List.mem_cons.mp hf with rfl | hf
        · exact Or.inl rfl
        · rcases h.2.2.2 f hf with he | ⟨x, hx, he⟩
          · exact Or.inr ⟨n, List.mem_cons_self n rest, he⟩
          · exact Or.inr ⟨x, List.mem_cons_of_mem n hx, he⟩

theorem insertByStartDesc_bottom (x : RecognizerResult)
    (l : List RecognizerResult) (h : ∀ y ∈ l, x.start < y.start) :
    insertByStartDesc x l = l ++ [x] := by
  induction l with
  | nil => rfl
  | cons y ys ih =>
    have : ¬ x.start ≥ y.start := by
      have := h y (List.mem_cons_self y ys)
      omega
    rw [insertByStartDesc, if_neg this, ih (fun z hz => h z (List.mem_cons_of_mem y hz))]
    rfl

theorem sortByStartDesc_strict (l : List RecognizerResult)
    (h : l.Pairwise (fun a b => a.start < b.start)) :
    sortByStartDesc l = l.reverse := by
  induction l with
  | nil => rfl
  | cons x xs ih =>
    rw [List.pairwise_cons] at h
    rw [sortByStartDesc, ih h.2,
      insertByStartDesc_bottom x xs.reverse
        (fun y hy => h.1 y (List.mem_reverse.mp hy))]
    simp

/-! ## Round trip: mapping (dict) lemmas -/

theorem dictInsert_self_mem (d : PyDict) (k v : Str) : (k, v) ∈ dictInsert d k v := by
  rw [dictInsert]
  split
  · rename_i hany
    rw [List.any_eq_true] at hany
    obtain ⟨p, hp, hpk⟩ := hany
    rw [List.mem_map]
    refine ⟨p, hp, ?_⟩
    rw [if_pos hpk]
  · exact List.mem_append_right _ (List.mem_singleton.mpr rfl)

theorem dictInsert_mem (d : PyDict) (k v : Str) (x : Str × Str)
    (hx : x ∈ dictInsert d k v) : x = (k, v) ∨ x ∈ d := by
  rw [dictInsert] at hx
  split at hx
  · rw [List.mem_map] at hx
    obtain ⟨p, hp, hpe⟩ := hx
    by_cases hpk : (p.1 == k) = true
    · rw [if_pos hpk] at hpe
      exact Or.inl hpe.symm
    · rw [if_neg hpk] at hpe
      exact Or.inr (hpe ▸ hp)
  · rcases List.mem_append.mp hx with h | h
    · exact Or.inr h
    · exact Or.inl (List.mem_singleton.mp h)

theorem dictInsert_preserve (d : PyDict) (k v k' v' : Str)
    (h : (k, v) ∈ d) (hcons : k' = k → v' = v) :
    (k, v) ∈ dictInsert d k' v' := by
  rw [dictInsert]
  split
  · rw [List.mem_map]
    refine ⟨(k, v), h, ?_⟩
    by_cases hk : k = k'
    · have hv : v' = v := hcons hk.symm
      subst hk
      subst hv
      rw [if_pos (by simp)]
    · rw [if_neg (by simp [hk])]
  · exact List.mem_append_left _ h

theorem maskPairs_mem (m : PrivalyseMasker) (text : Str)
    (D : List RecognizerResult) :
    ∀ (mp : PyDict) (p : Str × Str), p ∈ maskPairs m text D mp →
      (∃ r ∈ D, maskAction m text r = some p.1 ∧
        p.2 = pySlice text r.start r.«end») ∨ p ∈ mp := by
  induction D with
  | nil => intro mp p hp; exact Or.inr hp
  | cons r D ih =>
    intro mp p hp
    rcases h : maskAction m text r with _ | k
    · rw [maskPairs, h] at hp
      rcases ih mp p hp with ⟨r', hr', he⟩ | hin
      · exact Or.inl ⟨r', List.mem_cons_of_mem r hr', he⟩
      · exact Or.inr hin
    · rw [maskPairs, h] at hp
      rcases ih _ p hp with ⟨r', hr', he⟩ | hin
      · exact Or.inl ⟨r', List.mem_cons_of_mem r hr', he⟩
      · rcases dictInsert_mem _ _ _ _ hin with he | hin'
        · refine Or.inl ⟨r, List.mem_cons_self r D, ?_⟩
          rw [he]
          exact ⟨h, rfl⟩
        · exact Or.inr hin'

theorem maskPairs_preserve (m : PrivalyseMasker) (text : Str)
    (D : List RecognizerResult) :
    ∀ (mp : PyDict) (k v : Str), (k, v) ∈ mp →
      (∀ r ∈ D, maskAction m text r = some k →
        pySlice text r.start r.«end» = v) →
      (k, v) ∈ maskPairs m text D mp := by
  induction D with
  | nil => intro mp k v h _; exact h
  | cons r D ih =>
    intro mp k v h hcons
    rcases ha : maskAction m text r with _ | k'
    · rw [maskPairs, ha]
      exact ih mp k v h (fun r' hr' => hcons r' (List.mem_cons_of_mem r hr'))
    · rw [maskPairs, ha]
      apply ih _ k v
      · apply dictInsert_preserve _ _ _ _ _ h
        intro hk
        subst hk
        exact hcons r (List.mem_cons_self r D) ha
      · exact fun r' hr' => hcons r' (List.mem_cons_of_mem r hr')

theorem maskPairs_complete (m : PrivalyseMasker) (text : Str)
    (D : List RecognizerResult) :
    ∀ (mp : PyDict) (r : RecognizerResult) (k : Str), r ∈ D →
      maskAction m text r = some k →
      (∀ r' ∈ D, maskAction m text r' = some k →
        pySlice text r'.start r'.«end» = pySlice text r.start r.«end») →
      (k, pySlice text r.start r.«end») ∈ maskPairs m text D mp := by
  induction D with
  | nil => intro mp r k hr; cases hr
  | cons r' D ih =>
    intro mp r k hr ha hcons
    rcases List.mem_cons.mp hr with rfl | hr
    · rw [maskPairs, ha]
      apply maskPairs_preserve
      · exact dictInsert_self_mem mp k _
      · exact fun r'' hr'' ha'' =>
          hcons r'' (List.mem_cons_of_mem r hr'') ha''
    · rcases ha' : maskAction m text r' with _ | k''
      · rw [maskPairs, ha']
        exact ih mp r k hr ha
          (fun r'' hr'' => hcons r'' (List.mem_cons_of_mem r' hr''))
      · rw [maskPairs, ha']
        exact ih _ r k hr ha
          (fun r'' hr'' => hcons r'' (List.mem_cons_of_mem r' hr''))

/-! ## Round trip: generated placeholders are well-formed brace tokens -/

theorem hexDigitChar_ne_brace (n : Nat) :
    hexDigitChar n ≠ lbr ∧ hexDigitChar n ≠ rbr := by
  have h16 : n % 16 < 16 := Nat.mod_lt n (by norm_num)
  unfold hexDigitChar
  generalize n % 16 = r at h16 ⊢
  interval_cases r <;> exact ⟨by decide, by decide⟩

theorem bytesToHex_nobrace (bs : List Nat) : NoBrace (bytesToHex bs) := by
  induction bs with
  | nil => intro c hc; cases hc
  | cons b bs ih =>
    intro c hc
    rw [bytesToHex, List.foldr_cons] at hc
    rcases List.mem_cons.mp hc with rfl | hc
    · exact hexDigitChar_ne_brace _
    · rcases List.mem_cons.mp hc with rfl | hc
      · exact hexDigitChar_ne_brace _
      · exact ih c hc

theorem hash_suffix_nobrace (s : Str) (n : Nat) (salt : Str) :
    NoBrace (generate_hash_suffix s n salt) := by
  intro c hc
  rw [generate_hash_suffix] at hc
  exact bytesToHex_nobrace _ c (List.mem_of_mem_take hc)

theorem pySplit_ne_nil (sep : Char) (s : Str) : pySplit sep s ≠ [] := by
  cases s with
  | nil => simp [pySplit]
  | cons a as =>
    rw [pySplit]
    rcases h : pySplit sep as with _ | ⟨x, xs⟩
    · simp
    · dsimp only
      split <;> simp

theorem pySplit_chars (sep : Char) (s : Str) :
    ∀ seg ∈ pySplit sep s, ∀ c ∈ seg, c ∈ s := by
  induction s with
  | nil =>
    intro seg hseg c hc
    simp only [pySplit, List.mem_singleton] at hseg
    subst hseg
    cases hc
  | cons a as ih =>
    intro seg hseg c hc
    rw [pySplit] at hseg
    rcases hsp : pySplit sep as with _ | ⟨s0, t⟩
    · exact absurd hsp (pySplit_ne_nil sep as)
    · rw [hsp] at hseg
      dsimp only at hseg
      by_cases hae : a = sep
      · rw [if_pos hae] at hseg
        rcases List.mem_cons.mp hseg with rfl | hseg
        · cases hc
        · have : c ∈ as := ih seg (hsp ▸ hseg) c hc
          exact List.mem_cons_of_mem a this
      · rw [if_neg hae] at hseg
        rcases List.mem_cons.mp hseg with rfl | hseg
        · rcases List.mem_cons.mp hc with rfl | hc
          · exact List.mem_cons_self c as
          · have : c ∈ as := ih s0 (hsp ▸ List.mem_cons_self s0 t) c hc
            exact List.mem_cons_of_mem a this
        · have : c ∈ as := ih seg (hsp ▸ List.mem_cons_of_mem s0 hseg) c hc
          exact List.mem_cons_of_mem a this

theorem getLastD_nil_or_mem (l : List Str) :
    l.getLastD [] = [] ∨ l.getLastD [] ∈ l := by
  suffices h : ∀ (l : List Str) (d : Str), l.getLastD d = d ∨ l.getLastD d ∈ l by
    exact h l []
  intro l
  induction l with
  | nil => intro d; exact Or.inl rfl
  | cons b l ih =>
    intro d
    rw [List.getLastD_cons]
    rcases ih b with h | h
    · exact Or.inr (by rw [h]; exact List.mem_cons_self b l)
    · exact Or.inr (List.mem_cons_of_mem b h)

theorem pyStrip_subset (s : Str) : ∀ c ∈ pyStrip s, c ∈ s := by
  intro c hc
  rw [pyStrip] at hc
  rw [List.mem_reverse] at hc
  have h1 := (List.dropWhile_sublist (l := (s.dropWhile isPySpace).reverse)
    (p := isPySpace)).subset hc
  rw [List.mem_reverse] at h1
  exact (List.dropWhile_sublist (l := s) (p := isPySpace)).subset h1

theorem last_split_strip_nobrace (sep : Char) (s : Str) (hs : NoBrace s) :
    NoBrace (pyStrip ((pySplit sep s).getLastD [])) := by
  intro c hc
  have h1 : c ∈ (pySplit sep s).getLastD [] := pyStrip_subset _ c hc
  rcases getLastD_nil_or_mem (pySplit sep s) with he | hm
  · rw [he] at h1; cases h1
  · exact hs c (pySplit_chars sep s _ hm c h1)

theorem joinSep_chars (sep : Char) (parts : List Str) :
    ∀ c ∈ joinSep sep parts, c = sep ∨ ∃ p ∈ parts, c ∈ p := by
  induction parts with
  | nil => intro c hc; cases hc
  | cons x xs ih =>
    intro c hc
    cases xs with
    | nil =>
      exact Or.inr ⟨x, List.mem_cons_self x [], by simpa [joinSep] using hc⟩
    | cons y ys =>
      have hje : joinSep sep (x :: y :: ys) = x ++ sep :: joinSep sep (y :: ys) := rfl
      rw [hje] at hc
      rcases List.mem_append.mp hc with h | h
      · exact Or.inr ⟨x, List.mem_cons_self x _, h⟩
      · rcases List.mem_cons.mp h with rfl | h
        · exact Or.inl rfl
        · rcases ih c h with h' | ⟨p, hp, hcp⟩
          · exact Or.inl h'
          · exact Or.inr ⟨p, List.mem_cons_of_mem x hp, hcp⟩

theorem pyTitleGo_nobrace (s : Str) :
    ∀ b : Bool, NoBrace s → NoBrace (pyTitleGo b s) := by
  induction s with
  | nil => intro b _ c hc; cases hc
  | cons a as ih =>
    intro b hs c hc
    have ha := hs a (List.mem_cons_self a as)
    have has : NoBrace as := fun x hx => hs x (List.mem_cons_of_mem a hx)
    rw [pyTitleGo] at hc
    split at hc
    · rcases List.mem_cons.mp hc with rfl | hc
      · split
        · exact char_toLower_ne_brace a ha.1 ha.2
        · exact char_toUpper_ne_brace a ha.1 ha.2
      · exact ih true has c hc
    · rcases List.mem_cons.mp hc with rfl | hc
      · exact ha
      · exact ih false has c hc

theorem lookupD_country_nobrace (k d : Str) (hd : NoBrace d) :
    NoBrace (lookupD COUNTRY_MAP k d) := by
  rw [lookupD]
  rcases hf : COUNTRY_MAP.find? (fun p => p.1 == k) with _ | p
  · simp only [hf]
    exact hd
  · simp only [hf]
    have hp : p ∈ COUNTRY_MAP := List.mem_of_find?_eq_some hf
    have hall : ∀ q ∈ COUNTRY_MAP, NoBrace q.2 := by decide
    exact hall p hp

theorem parse_and_format_date_clean (dp : Str → Option (Str × Str))
    (hdp : ∀ s mo yr, dp s = some (mo, yr) → NoBrace mo ∧ NoBrace yr) (s : Str) :
    KeyClean (parse_and_format_date dp s) := by
  rw [parse_and_format_date]
  rcases h : dp s with _ | ⟨mo, yr⟩
  · exact braceTok_clean (by decide)
  · have hmy := hdp s mo yr h
    exact braceTok_clean
      ((((by decide : NoBrace "Date_".toList).append hmy.1).append
        (by decide : NoBrace ['_'])).append hmy.2)

theorem surrogate_for_location_clean (m : PrivalyseMasker) (lit : Str)
    (hlit : NoBrace lit) :
    ∀ k, surrogate_for_location m lit = some k → KeyClean k := by
  intro k hk
  rw [surrogate_for_location] at hk
  dsimp only at hk
  split_ifs at hk with h1 h2 h3
  · rw [Option.some_inj] at hk
    subst hk
    exact braceTok_clean ((by decide : NoBrace "Address_in_".toList).append
      (last_split_strip_nobrace ',' lit hlit))
  · rw [Option.some_inj] at hk
    subst hk
    exact braceTok_clean ((by decide : NoBrace "Address_".toList).append
      (hash_suffix_nobrace lit 5 m.seed))
  · rw [Option.some_inj] at hk
    subst hk
    exact braceTok_clean ((by decide : NoBrace "Address_".toList).append
      (hash_suffix_nobrace lit 5 m.seed))

theorem surrogate_for_id_document_clean (et lit : Str) (het : NoBrace et) :
    KeyClean (surrogate_for_id_document et lit) := by
  have hsub : ∀ seg ∈ pySplit '_' et, NoBrace seg :=
    fun seg hseg c hc => het c (pySplit_chars '_' et seg hseg c hc)
  rcases hsp : pySplit '_' et with _ | ⟨p0, t⟩
  · rw [surrogate_for_id_document, hsp]
    exact braceTok_clean het
  · rcases t with _ | ⟨p1, rest⟩
    · rw [surrogate_for_id_document, hsp]
      exact braceTok_clean het
    · rw [surrogate_for_id_document, hsp]
      dsimp only
      split
      · apply braceTok_clean
        apply NoBrace.append
        · exact lookupD_country_nobrace p0 p0
            (hsub p0 (hsp ▸ List.mem_cons_self p0 _))
        · intro c hc
          rcases List.mem_cons.mp hc with rfl | hc
          · exact ⟨by decide, by decide⟩
          · apply pyTitleGo_nobrace _ false _ c hc
            intro x hx
            rcases joinSep_chars '_' (p1 :: rest) x hx with rfl | ⟨p, hp, hxp⟩
            · exact ⟨by decide, by decide⟩
            · exact hsub p (hsp ▸ List.mem_cons_of_mem p0 hp) x hxp
      · exact braceTok_clean het

theorem generate_surrogate_clean (m : PrivalyseMasker)
    (hdp : ∀ s mo yr, m.dateParse s = some (mo, yr) → NoBrace mo ∧ NoBrace yr)
    (hpp : ∀ s r, m.phoneParse s = some r → NoBrace r)
    (et lit : Str) (het : NoBrace et) (hlit : NoBrace lit) :
    ∀ k, generate_surrogate m et lit = some k → KeyClean k := by
  intro k hk
  rw [generate_surrogate] at hk
  split_ifs at hk with h1 h2 h3 h4 h5 h6 h7 h8 h9
  · -- PERSON
    rw [Option.some_inj] at hk
    subst hk
    exact braceTok_clean ((by decide : NoBrace "Name_".toList).append
      (hash_suffix_nobrace lit 5 m.seed))
  · -- DATE_TIME
    rw [Option.some_inj] at hk
    subst hk
    exact parse_and_format_date_clean m.dateParse hdp lit
  · -- IBAN_CODE
    rw [Option.some_inj] at hk
    subst hk
    rw [surrogate_for_iban]
    split
    · apply braceTok_clean
      apply NoBrace.append
      · apply lookupD_country_nobrace
        intro c hc
        rw [List.mem_map] at hc
        obtain ⟨c0, hc0, rfl⟩ := hc
        have := hlit c0 (List.mem_of_mem_take hc0)
        exact char_toUpper_ne_brace c0 this.1 this.2
      · decide
    · exact braceTok_clean (by decide)
  · -- DE_ID_CARD
    rw [Option.some_inj] at hk
    subst hk
    exact braceTok_clean (by decide)
  · -- EMAIL_ADDRESS
    rw [Option.some_inj] at hk
    subst hk
    rw [surrogate_for_email]
    split
    · apply braceTok_clean
      apply NoBrace.append
      · decide
      · intro c hc
        rcases getLastD_nil_or_mem (pySplit '@' lit) with he | hm
        · rw [he] at hc; cases hc
        · exact hlit c (pySplit_chars '@' lit _ hm c hc)
    · exact braceTok_clean (by decide)
  · -- PHONE_NUMBER
    rw [Option.some_inj] at hk
    subst hk
    rw [surrogate_for_phone]
    rcases h : m.phoneParse lit with _ | region
    · simp only [h]
      exact braceTok_clean (by decide)
    · simp only [h]
      split
      · exact braceTok_clean
          ((by decide : NoBrace "Phone_".toList).append (hpp lit region h))
      · exact braceTok_clean (by decide)
  · -- LOCATION
    exact surrogate_for_location_clean m lit hlit k hk
  · -- NRP
    rw [Option.some_inj] at hk
    subst hk
    exact braceTok_clean ((by decide : NoBrace "Nationality_".toList).append
      (hash_suffix_nobrace lit 5 m.seed))
  · -- compound document-id tags
    rw [Option.some_inj] at hk
    subst hk
    exact surrogate_for_id_document_clean et lit het
  · -- generic fallback
    rw [Option.some_inj] at hk
    subst hk
    apply braceTok_clean
    apply het.append
    intro c hc
    rcases List.mem_cons.mp hc with rfl | hc
    · exact ⟨by decide, by decide⟩
    · exact hash_suffix_nobrace lit 5 m.seed c hc

/-! ## Round trip: unmasking a mixed rendering -/

theorem renderMix_congr (m : PrivalyseMasker) (text : Str)
    (D : List RecognizerResult) :
    ∀ (n : Nat) (f g : RecognizerResult → Str),
      (∀ r ∈ D, ∀ k, maskAction m text r = some k → f r = g r) →
      renderMix m text f D n = renderMix m text g D n := by
  induction D with
  | nil => intro n f g _; rfl
  | cons r D ih =>
    intro n f g hfg
    rcases ha : maskAction m text r with _ | k
    · simp only [renderMix, ha]
      exact ih n f g (fun r' hr' => hfg r' (List.mem_cons_of_mem r hr'))
    · simp only [renderMix, ha]
      rw [ih r.start f g (fun r' hr' => hfg r' (List.mem_cons_of_mem r hr')),
        hfg r (List.mem_cons_self r D) k ha]

theorem pyReplace_eq_replaceGo (s pat rep : Str) (h : pat ≠ []) :
    pyReplace s pat rep = replaceGo pat rep 0 s := by
  rw [pyReplace, if_neg h]

theorem KeyClean.ne_nil {k : Str} (h : KeyClean k) : k ≠ [] := by
  obtain ⟨w, rfl, -⟩ := h
  simp

/-- Replacing one clean key/value pair in a mixed rendering flips exactly the
slots that currently hold that key to their literal value, and touches
nothing else. -/
theorem replaceGo_renderMix (m : PrivalyseMasker) (text : Str)
    (hT : NoBrace text) (k v : Str) (hkc : KeyClean k)
    (D : List RecognizerResult) :
    ∀ (n : Nat) (f : RecognizerResult → Str) (rest : Str),
      (∀ r ∈ D, r.start < r.«end» ∧ r.«end» ≤ n) →
      D.Pairwise (fun a b => b.«end» ≤ a.start) →
      (∀ r ∈ D, ∀ k', maskAction m text r = some k' →
        KeyClean k' ∧ (f r = k' ∨ f r = pySlice text r.start r.«end»)) →
      (∀ r ∈ D, maskAction m text r = some k →
        pySlice text r.start r.«end» = v) →
      replaceGo k v 0 (renderMix m text f D n ++ rest) =
        renderMix m text
          (fun r => if maskAction m text r = some k
            then pySlice text r.start r.«end» else f r) D n ++
          replaceGo k v 0 rest := by
  have hkl : ∃ t, k = lbr :: t := by
    obtain ⟨w, rfl, -⟩ := hkc
    exact ⟨_, rfl⟩
  induction D with
  | nil =>
    intro n f rest _ _ _ _
    simp only [renderMix]
    exact replaceGo_push k v (text.take n) rest hkl
      (fun c hc => (NoBrace_take hT n c hc).1)
  | cons r D ih =>
    intro n f rest hb hp hf hv
    rw [List.pairwise_cons] at hp
    have hbD : ∀ r' ∈ D, r'.start < r'.«end» ∧ r'.«end» ≤ n :=
      fun r' hr' => hb r' (List.mem_cons_of_mem r hr')
    have hfD : ∀ r' ∈ D, ∀ k', maskAction m text r' = some k' →
        KeyClean k' ∧ (f r' = k' ∨ f r' = pySlice text r'.start r'.«end») :=
      fun r' hr' => hf r' (List.mem_cons_of_mem r hr')
    have hvD : ∀ r' ∈ D, maskAction m text r' = some k →
        pySlice text r'.start r'.«end» = v :=
      fun r' hr' => hv r' (List.mem_cons_of_mem r hr')
    rcases ha : maskAction m text r with _ | k'
    · simp only [renderMix, ha]
      exact ih n f rest hbD hp.2 hfD hvD
    · simp only [renderMix, ha]
      have hr := hb r (List.mem_cons_self r D)
      have hbD' : ∀ r' ∈ D, r'.start < r'.«end» ∧ r'.«end» ≤ r.start :=
        fun r' hr' => ⟨(hbD r' hr').1, hp.1 r' hr'⟩
      have hsl : ∀ c ∈ pySlice text r.«end» n, c ≠ lbr :=
        fun c hc => (NoBrace_pySlice hT r.«end» n c hc).1
    -- peel the leading mixed prefix
      rw [List.append_assoc, List.append_assoc,
        ih r.start f (f r ++ (pySlice text r.«end» n ++ rest)) hbD' hp.2 hfD hvD]
      obtain ⟨hk'c, hfr⟩ := hf r (List.mem_cons_self r D) k' ha
      have hstep : replaceGo k v 0 (f r ++ (pySlice text r.«end» n ++ rest)) =
          (if maskAction m text r = some k
            then pySlice text r.start r.«end» else f r) ++
            (pySlice text r.«end» n ++ replaceGo k v 0 rest) := by
        rcases hfr with hfr | hfr
        · by_cases hkk : k' = k
          · subst hkk
            rw [hfr, replaceGo_self k' v _ hkc,
              replaceGo_push k' v _ rest hkl hsl, if_pos ha,
              hv r (List.mem_cons_self r D) ha]
          · rw [hfr, replaceGo_other k k' v _ hkc hk'c (fun h => hkk h.symm),
              replaceGo_push k v _ rest hkl hsl,
              if_neg (by rw [ha]; exact fun h => hkk (Option.some_inj.mp h))]
        · have hlitl : ∀ c ∈ pySlice text r.start r.«end», c ≠ lbr :=
            fun c hc => (NoBrace_pySlice hT r.start r.«end» c hc).1
          rw [hfr, replaceGo_push k v _ _ hkl hlitl,
            replaceGo_push k v _ rest hkl hsl]
          split
          · rfl
          · rfl
      rw [hstep]
      simp only [List.append_assoc, List.append_cancel_left_eq]
      rw [ha]

/-- Folding the Restorer's replacement pass over a pair list restores every
slot whose key occurs in the list. -/
theorem foldl_replace_renderMix (m : PrivalyseMasker) (text : Str)
    (hT : NoBrace text) (D : List RecognizerResult) (n : Nat)
    (hb : ∀ r ∈ D, r.start < r.«end» ∧ r.«end» ≤ n)
    (hp : D.Pairwise (fun a b => b.«end» ≤ a.start)) :
    ∀ (P : PyDict) (f : RecognizerResult → Str),
      (∀ r ∈ D, ∀ k', maskAction m text r = some k' →
        KeyClean k' ∧ (f r = k' ∨ f r = pySlice text r.start r.«end»)) →
      (∀ p ∈ P, KeyClean p.1 ∧ ∀ r ∈ D, maskAction m text r = some p.1 →
        pySlice text r.start r.«end» = p.2) →
      P.foldl (fun t q => pyReplace t q.1 q.2) (renderMix m text f D n) =
        renderMix m text
          (fun r => if ∃ p ∈ P, maskAction m text r = some p.1
            then pySlice text r.start r.«end» else f r) D n := by
  intro P
  induction P with
  | nil =>
    intro f hf _
    rw [List.foldl_nil]
    apply renderMix_congr
    intro r _ k _
    rw [if_neg (by simp)]
  | cons q P ih =>
    intro f hf hP
    obtain ⟨hq, hqv⟩ := hP q (List.mem_cons_self q P)
    rw [List.foldl_cons, pyReplace_eq_replaceGo _ _ _ hq.ne_nil]
    have hrw := replaceGo_renderMix m text hT q.1 q.2 hq D n f [] hb hp hf hqv
    rw [List.append_nil] at hrw
    have hnil : replaceGo q.1 q.2 0 [] = [] := rfl
    rw [hnil, List.append_nil] at hrw
    rw [hrw]
    have hf' : ∀ r ∈ D, ∀ k', maskAction m text r = some k' →
        KeyClean k' ∧ ((if maskAction m text r = some q.1
          then pySlice text r.start r.«end» else f r) = k' ∨
          (if maskAction m text r = some q.1
            then pySlice text r.start r.«end» else f r) =
            pySlice text r.start r.«end») := by
      intro r hr k' ha
      obtain ⟨hkc', hfr⟩ := hf r hr k' ha
      refine ⟨hkc', ?_⟩
      by_cases h2 : maskAction m text r = some q.1
      · rw [if_pos h2]
        exact Or.inr rfl
      · rw [if_neg h2]
        exact hfr
    rw [ih (fun r => if maskAction m text r = some q.1
        then pySlice text r.start r.«end» else f r) hf'
      (fun p hp' => hP p (List.mem_cons_of_mem q hp'))]
    apply renderMix_congr
    intro r _ k ha
    by_cases h1 : ∃ p ∈ P, maskAction m text r = some p.1
    · rw [if_pos h1, if_pos ⟨h1.choose, List.mem_cons_of_mem q h1.choose_spec.1,
        h1.choose_spec.2⟩]
    · rw [if_neg h1]
      by_cases h2 : maskAction m text r = some q.1
      · rw [if_pos h2, if_pos ⟨q, List.mem_cons_self q P, h2⟩]
      · rw [if_neg h2,
          if_neg (by
            rintro ⟨p, hpm, hpa⟩
            rcases List.mem_cons.mp hpm with rfl | hpm
            · exact h2 hpa
            · exact h1 ⟨p, hpm, hpa⟩)]

/-! ## Round trip: final assembly -/

theorem remove_overlaps_pairwise (results : List RecognizerResult) :
    (remove_overlaps results).Pairwise (fun a b => a.«end» ≤ b.start) ∧
    (remove_overlaps results).Pairwise (fun a b => a.start ≤ b.start) := by
  unfold remove_overlaps
  rcases hs : sortByStart results with _ | ⟨x, xs⟩
  · simp
  · have hsorted := sortByStart_sorted results
    rw [hs, List.pairwise_cons] at hsorted
    have h := remove_overlaps_go_spec xs x hsorted.1 hsorted.2
    exact ⟨h.2.1, h.2.2⟩

theorem maskAction_some (m : PrivalyseMasker) (text : Str) (r : RecognizerResult)
    (k : Str) (h : maskAction m text r = some k) :
    generate_surrogate m r.entity_type (pySlice text r.start r.«end») = some k := by
  rw [maskAction] at h
  split at h
  · cases h
  · exact h

/-- C1, amended.  Round trip of the masking engine: for a text containing no
brace characters, valid nonempty in-bounds candidate spans with brace-free
entity-type tags, collaborators whose outputs are brace-free, and a final
(resolved, merged) span set in which no two distinct masked literals produce
the same placeholder, `unmask` applied to the masked text with the returned
mapping restores the text exactly. -/
theorem C1_round_trip_amended (m : PrivalyseMasker) (text : Str)
    (results : List RecognizerResult)
    (hT : NoBrace text)
    (hR : ∀ r ∈ results, r.start < r.«end» ∧ r.«end» ≤ text.length)
    (hTy : ∀ r ∈ results, NoBrace r.entity_type)
    (hdp : ∀ s mo yr, m.dateParse s = some (mo, yr) → NoBrace mo ∧ NoBrace yr)
    (hpp : ∀ s r, m.phoneParse s = some r → NoBrace r)
    (hK : ∀ r1 ∈ merge_adjacent_dates text (remove_overlaps results),
          ∀ r2 ∈ merge_adjacent_dates text (remove_overlaps results),
          generate_surrogate m r1.entity_type (pySlice text r1.start r1.«end») =
            generate_surrogate m r2.entity_type (pySlice text r2.start r2.«end») →
          generate_surrogate m r1.entity_type (pySlice text r1.start r1.«end») ≠
            none →
          pySlice text r1.start r1.«end» = pySlice text r2.start r2.«end») :
    unmask (mask m text results).1 (mask m text results).2 = text := by
  obtain ⟨hLp, hLs⟩ := remove_overlaps_pairwise results
  have hLsub := remove_overlaps_subset results
  have hLval : ∀ x ∈ remove_overlaps results,
      x.start < x.«end» ∧ x.«end» ≤ text.length :=
    fun x hx => hR x (hLsub x hx)
  -- facts about the merged span set F
  have hMp : (merge_adjacent_dates text (remove_overlaps results)).Pairwise
        (fun a b => a.«end» ≤ b.start) ∧
      (∀ f ∈ merge_adjacent_dates text (remove_overlaps results),
        f.start < f.«end» ∧ f.«end» ≤ text.length) ∧
      (∀ f ∈ merge_adjacent_dates text (remove_overlaps results),
        NoBrace f.entity_type) := by
    rw [merge_adjacent_dates, sortByStart_eq_of_sorted _ hLs]
    rcases hL : remove_overlaps results with _ | ⟨x, xs⟩
    · simp
    · rw [hL] at hLp hLval hLsub
      rw [List.pairwise_cons] at hLp
      have h := merge_go_spec text xs x hLp.1 hLp.2
        (hLval x (List.mem_cons_self x xs))
        (fun y hy => hLval y (List.mem_cons_of_mem x hy))
      refine ⟨h.2.1, h.2.2.1, ?_⟩
      intro f hf
      rcases h.2.2.2 f hf with he | ⟨y, hy, he⟩
      · rw [he]
        exact hTy x (hLsub x (List.mem_cons_self x xs))
      · rw [he]
        exact hTy y (hLsub y (List.mem_cons_of_mem x hy))
  obtain ⟨hFp, hFval, hFty⟩ := hMp
  have hFstrict : (merge_adjacent_dates text (remove_overlaps results)).Pairwise
      (fun a b => a.start < b.start) := by
    apply hFp.imp_of_mem
    intro a b ha hb hab
    have := (hFval a ha).1
    omega
  have hdesc := sortByStartDesc_strict _ hFstrict
  -- facts about the descending list D
  have hDval : ∀ r ∈ (merge_adjacent_dates text (remove_overlaps results)).reverse,
      r.start < r.«end» ∧ r.«end» ≤ text.length :=
    fun r hr => hFval r (List.mem_reverse.mp hr)
  have hDp : (merge_adjacent_dates text (remove_overlaps results)).reverse.Pairwise
      (fun a b => b.«end» ≤ a.start) :=
    List.pairwise_reverse.mpr hFp
  have hDty : ∀ r ∈ (merge_adjacent_dates text (remove_overlaps results)).reverse,
      NoBrace r.entity_type :=
    fun r hr => hFty r (List.mem_reverse.mp hr)
  -- the masked text is a mixed rendering with key-filled slots
  have h1 := mask_go_renderMix m text
    (merge_adjacent_dates text (remove_overlaps results)).reverse text.length [] []
    (le_refl _) hDval hDp
  rw [show text.take text.length ++ ([] : Str) = text by simp] at h1
  rw [List.append_nil] at h1
  have hmask : mask m text results =
      (renderMix m text (fun r => (maskAction m text r).getD [])
        (merge_adjacent_dates text (remove_overlaps results)).reverse text.length,
       maskPairs m text (merge_adjacent_dates text (remove_overlaps results)).reverse
        []) := by
    rw [mask, hdesc]
    exact h1
  rw [hmask]
  rw [unmask]
  -- key cleanliness at every masked slot
  have hclean : ∀ r ∈ (merge_adjacent_dates text (remove_overlaps results)).reverse,
      ∀ k, maskAction m text r = some k → KeyClean k := by
    intro r hr k ha
    exact generate_surrogate_clean m hdp hpp r.entity_type
      (pySlice text r.start r.«end») (hDty r hr)
      (NoBrace_pySlice hT r.start r.«end») k (maskAction_some m text r k ha)
  -- same key at two slots means same literal
  have hsame : ∀ r1 ∈ (merge_adjacent_dates text (remove_overlaps results)).reverse,
      ∀ r2 ∈ (merge_adjacent_dates text (remove_overlaps results)).reverse,
      ∀ k, maskAction m text r1 = some k → maskAction m text r2 = some k →
      pySlice text r1.start r1.«end» = pySlice text r2.start r2.«end» := by
    intro r1 hr1 r2 hr2 k ha1 ha2
    apply hK r1 (List.mem_reverse.mp hr1) r2 (List.mem_reverse.mp hr2)
    · rw [maskAction_some m text r1 k ha1, maskAction_some m text r2 k ha2]
    · rw [maskAction_some m text r1 k ha1]
      simp
  -- apply the Restorer fold
  rw [foldl_replace_renderMix m text hT
    (merge_adjacent_dates text (remove_overlaps results)).reverse text.length
    hDval hDp
    (sortByKeyLenDesc (maskPairs m text
      (merge_adjacent_dates text (remove_overlaps results)).reverse []))
    (fun r => (maskAction m text r).getD [])
    (by
      intro r hr k' ha
      refine ⟨hclean r hr k' ha, Or.inl ?_⟩
      show (maskAction m text r).getD [] = k'
      rw [ha]
      rfl)
    (by
      intro p hp
      have hp' : p ∈ maskPairs m text
          (merge_adjacent_dates text (remove_overlaps results)).reverse [] :=
        (mem_sortByKeyLenDesc p _).mp hp
      rcases maskPairs_mem m text _ [] p hp' with ⟨r0, hr0, ha0, hv0⟩ | hin
      · refine ⟨hclean r0 hr0 p.1 ha0, ?_⟩
        intro r hr ha
        rw [hv0]
        exact hsame r hr r0 hr0 p.1 ha ha0
      · cases hin)]
  -- every slot's key occurs in the mapping, so all slots are restored
  have hfinal : renderMix m text
      (fun r => if ∃ p ∈ sortByKeyLenDesc (maskPairs m text
            (merge_adjacent_dates text (remove_overlaps results)).reverse []),
          maskAction m text r = some p.1
        then pySlice text r.start r.«end»
        else (maskAction m text r).getD [])
      (merge_adjacent_dates text (remove_overlaps results)).reverse text.length =
      renderMix m text (fun r => pySlice text r.start r.«end»)
        (merge_adjacent_dates text (remove_overlaps results)).reverse
        text.length := by
    apply renderMix_congr
    intro r hr k ha
    have hmem : (k, pySlice text r.start r.«end») ∈ maskPairs m text
        (merge_adjacent_dates text (remove_overlaps results)).reverse [] := by
      apply maskPairs_complete m text _ [] r k hr ha
      intro r' hr' ha'
      exact hsame r' hr' r hr k ha' ha
    rw [if_pos ⟨(k, pySlice text r.start r.«end»),
      (mem_sortByKeyLenDesc _ _).mpr hmem, ha⟩]
  rw [hfinal,
    renderMix_lit m text _ text.length
      (fun r hr => ⟨le_of_lt (hDval r hr).1, (hDval r hr).2⟩) hDp,
    List.take_length]

/-- C1, counterexample.  The text `"a@dx\x7d b@d\x7dx"` contains no
brace-delimited substring at all (no `\x7b` occurs in it), the two EMAIL
spans have distinct literals and produce the distinct placeholders
`\x7bEmail_at_d\x7d` and `\x7bEmail_at_d\x7dx\x7d`, neither of which occurs
in the text — yet the round trip fails: the longer placeholder contains an
internal brace, the masked text `\x7bEmail_at_d\x7dx\x7d \x7bEmail_at_d\x7dx\x7d`
contains a spurious occurrence of it spanning the shorter placeholder and the
adjacent original text, and `unmask` returns `"b@d\x7dx b@d\x7dx"` instead of
the original text. -/
theorem C1_round_trip_counterexample :
    (mask masker0 "a@dx\x7d b@d\x7dx".toList
        [⟨"EMAIL_ADDRESS".toList, 0, 3, 1⟩, ⟨"EMAIL_ADDRESS".toList, 6, 11, 1⟩]).2 =
      [("\x7bEmail_at_d\x7dx\x7d".toList, "b@d\x7dx".toList),
       ("\x7bEmail_at_d\x7d".toList, "a@d".toList)] ∧
    occursB "\x7bEmail_at_d\x7dx\x7d".toList "a@dx\x7d b@d\x7dx".toList = false ∧
    occursB "\x7bEmail_at_d\x7d".toList "a@dx\x7d b@d\x7dx".toList = false ∧
    occursB [lbr] "a@dx\x7d b@d\x7dx".toList = false ∧
    ("\x7bEmail_at_d\x7dx\x7d".toList : Str) ≠ "\x7bEmail_at_d\x7d".toList ∧
    unmask (mask masker0 "a@dx\x7d b@d\x7dx".toList
        [⟨"EMAIL_ADDRESS".toList, 0, 3, 1⟩, ⟨"EMAIL_ADDRESS".toList, 6, 11, 1⟩]).1
      (mask masker0 "a@dx\x7d b@d\x7dx".toList
        [⟨"EMAIL_ADDRESS".toList, 0, 3, 1⟩, ⟨"EMAIL_ADDRESS".toList, 6, 11, 1⟩]).2 =
      "b@d\x7dx b@d\x7dx".toList ∧
    unmask (mask masker0 "a@dx\x7d b@d\x7dx".toList
        [⟨"EMAIL_ADDRESS".toList, 0, 3, 1⟩, ⟨"EMAIL_ADDRESS".toList, 6, 11, 1⟩]).1
      (mask masker0 "a@dx\x7d b@d\x7dx".toList
        [⟨"EMAIL_ADDRESS".toList, 0, 3, 1⟩, ⟨"EMAIL_ADDRESS".toList, 6, 11, 1⟩]).2 ≠
      "a@dx\x7d b@d\x7dx".toList := by decide

/-- Witness for C1 at a concrete input: one PERSON span in a brace-free text
round-trips through `mask` and `unmask`. -/
theorem C1_round_trip_amended_witness :
    unmask (mask masker0 "Tell Anna Schmidt hi".toList
        [⟨"PERSON".toList, 5, 17, 1⟩]).1
      (mask masker0 "Tell Anna Schmidt hi".toList
        [⟨"PERSON".toList, 5, 17, 1⟩]).2 = "Tell Anna Schmidt hi".toList :=
  C1_round_trip_amended masker0 "Tell Anna Schmidt hi".toList
    [⟨"PERSON".toList, 5, 17, 1⟩] (by decide) (by decide) (by decide)
    (fun _ _ _ h => nomatch h) (fun _ _ h => nomatch h) (by decide)
